import Mathlib

/-!
# Extraction of boleto and PIX codes (`src/script.js`)

A shallow embedding of the extraction engine of `script.js` and the properties
proved about it.

A JavaScript string is modelled as a `List Char`.  Every character the program
tests for (ASCII digits and letters, dot, hyphen, the white space characters,
the line terminators) lies in the Basic Multilingual Plane, where one character
is one UTF-16 code unit, so lengths and character classes agree with the
source on every text the theorems speak about.

The regular expressions of the source are embedded as *matchers*: a matcher
receives the text that starts at the current position and returns the length
of the match the backtracking engine finds there, if any.  The global scans
(`String.prototype.match` with the `g` flag, `String.prototype.replace` with
the `g` flag) are the generic functions `matchAll` and `replaceAll`.
-/

namespace ExtrairCodigo

/-- A JavaScript string. -/
abbrev Str := List Char

/-! ## Character classes -/

/-- The class `\d` (no `u` flag): the ASCII digits `0`..`9`. -/
def isDigit (c : Char) : Bool := decide (48 ≤ c.toNat) && decide (c.toNat ≤ 57)

/-- The class `\s`, which is also the set `String.prototype.trim` strips:
ECMAScript WhiteSpace (TAB, VT, FF, SP, NBSP, ZWNBSP and the Unicode space
separators) together with the LineTerminators (LF, CR, LS, PS). -/
def isWhiteSpace (c : Char) : Bool :=
  let n := c.toNat
  (decide (9 ≤ n) && decide (n ≤ 13)) || n == 32 || n == 160 || n == 5760 ||
  (decide (8192 ≤ n) && decide (n ≤ 8202)) || n == 8232 || n == 8233 || n == 8239 ||
  n == 8287 || n == 12288 || n == 65279

/-- The class `[0-9A-Za-z]`. -/
def isAlnum (c : Char) : Bool :=
  let n := c.toNat
  (decide (48 ≤ n) && decide (n ≤ 57)) || (decide (65 ≤ n) && decide (n ≤ 90)) ||
  (decide (97 ≤ n) && decide (n ≤ 122))

/-- The class `[\d\.\-\s]` of the separator-tolerant boleto pattern. -/
def isBoletoChar (c : Char) : Bool :=
  isDigit c || c.toNat == 46 || c.toNat == 45 || isWhiteSpace c

/-- What `.` matches (no `s` flag): anything but LF, CR, LS and PS. -/
def isDotChar (c : Char) : Bool :=
  !(c.toNat == 10 || c.toNat == 13 || c.toNat == 8232 || c.toNat == 8233)

/-! ## Global scans -/

/-- All matches of a pattern, as `text.match(/.../g) || []` lists them:
leftmost first, the search resuming where the previous match ended (one
character further after an empty match).  The first argument counts the
characters still covered by the previous match. -/
def matchAllAux (matchAt : Str → Option Nat) : Nat → Str → List Str
  | _, [] => []
  | skip + 1, _ :: rest => matchAllAux matchAt skip rest
  | 0, c :: rest =>
    match matchAt (c :: rest) with
    | some n => (c :: rest).take n :: matchAllAux matchAt (n - 1) rest
    | none => matchAllAux matchAt 0 rest

/-- The result of `text.match(re) || []` for a global pattern. -/
def matchAll (matchAt : Str → Option Nat) (text : Str) : List Str :=
  matchAllAux matchAt 0 text

/-- The text with every match replaced, as `text.replace(/.../g, ...)`
builds it: unmatched characters are copied, each match `m` contributes
`f m`. -/
def replaceAllAux (matchAt : Str → Option Nat) (f : Str → Str) : Nat → Str → Str
  | _, [] => []
  | skip + 1, _ :: rest => replaceAllAux matchAt f skip rest
  | 0, c :: rest =>
    match matchAt (c :: rest) with
    | some 0 => f [] ++ c :: replaceAllAux matchAt f 0 rest
    | some (n + 1) => f ((c :: rest).take (n + 1)) ++ replaceAllAux matchAt f n rest
    | none => c :: replaceAllAux matchAt f 0 rest

/-- The result of `text.replace(re, ...)` for a global pattern. -/
def replaceAll (matchAt : Str → Option Nat) (f : Str → Str) (text : Str) : Str :=
  replaceAllAux matchAt f 0 text

/-! ## The patterns of the source -/

/-- The pattern `/\u00A0/`: one non-breaking space (code 160). -/
def nbspAt : Str → Option Nat
  | c :: _ => if c.toNat == 160 then some 1 else none
  | [] => none

/-- A pattern `C+` for a character class `C`: the longest non-empty run. -/
def runAt (cls : Char → Bool) (s : Str) : Option Nat :=
  let n := (s.takeWhile cls).length
  if 1 ≤ n then some n else none

/-- The pattern `/\D+/`. -/
def nonDigitsAt : Str → Option Nat := runAt (fun c => !isDigit c)

/-- The pattern `/\s+/`. -/
def whiteSpaceAt : Str → Option Nat := runAt isWhiteSpace

/-- Whether the character at index `k` exists and is a digit. -/
def digitAt (s : Str) (k : Nat) : Bool :=
  match s.get? k with
  | some d => isDigit d
  | none => false

/-- Backtracking of `[\d\.\-\s]{35,}\d`: with the quantifier holding `k`
characters, try the final `\d` at index `k`, then give one character back,
never going below 35. -/
def boletoBacktrack (rest : Str) : Nat → Option Nat
  | 0 => none
  | k + 1 =>
    if 35 ≤ k + 1 then
      if digitAt rest (k + 1) then some (k + 1) else boletoBacktrack rest k
    else none

/-- The pattern `/(?:\d[\d\.\-\s]{35,}\d)/`: a digit, then the quantifier takes
the whole run of class characters and backtracks to the last position followed
by a digit. -/
def boletoRunAt : Str → Option Nat
  | [] => none
  | c :: rest =>
    if isDigit c then
      (boletoBacktrack rest (rest.takeWhile isBoletoChar).length).map (· + 2)
    else none

/-- The pattern `/\d{46,48}/`: greedily up to 48 digits, at least 46. -/
def directDigitsAt (s : Str) : Option Nat :=
  let n := ((s.take 48).takeWhile isDigit).length
  if 46 ≤ n then some n else none

/-- The marker every PIX payload starts with. -/
def pixMarker : Str := ['0', '0', '0', '2', '0', '1']

/-- The pattern `/000201[0-9A-Za-z]{20,}/`. -/
def pixAt (s : Str) : Option Nat :=
  if pixMarker.isPrefixOf s then
    let k := ((s.drop 6).takeWhile isAlnum).length
    if 20 ≤ k then some (6 + k) else none
  else none

/-- The pattern `/(.{5})/`. -/
def fiveAt (s : Str) : Option Nat :=
  if 5 ≤ s.length && (s.take 5).all isDotChar then some 5 else none

/-! ## Helpers of the source -/

/-- `String.prototype.trim`. -/
def trim (s : Str) : Str := (s.dropWhile isWhiteSpace).rdropWhile isWhiteSpace

/-- `normalizeText`: non-breaking spaces become spaces, then the text is trimmed. -/
def normalizeText (t : Str) : Str :=
  trim (replaceAll nbspAt (fun _ => [' ']) t)

/-- `onlyDigits`: every run of non-digits is deleted. -/
def onlyDigits (s : Str) : Str :=
  replaceAll nonDigitsAt (fun _ => []) s

/-! ## Candidates and the insertion-ordered map -/

/-- The `type` field of a candidate. -/
inductive CodeType
  | BOLETO
  | PIX
  deriving DecidableEq, Repr, Inhabited

/-- A candidate `{type, raw, clean}`. -/
structure Candidate where
  type : CodeType
  raw : Str
  clean : Str
  deriving DecidableEq, Repr, Inhabited

/-- A JavaScript `Map` from strings to candidates: the entries in insertion
order. -/
abbrev CandMap := List (Str × Candidate)

/-- `Map.prototype.set`: the value of an existing key is replaced where the key
stands, a new key is appended. -/
def mapSet : CandMap → Str → Candidate → CandMap
  | [], k, v => [(k, v)]
  | (k', v') :: rest, k, v =>
    if k' = k then (k, v) :: rest else (k', v') :: mapSet rest k v

/-- `[...uniques.values()]`. -/
def mapValues (m : CandMap) : List Candidate := m.map Prod.snd

/-- `[46,47,48].includes(n)`. -/
def isBoletoLength (n : Nat) : Bool := [46, 47, 48].contains n

/-! ## The detectors and the formatter -/

/-- Body of the first loop of `findBoletoCandidates`. -/
def boletoStep (uniques : CandMap) (m : Str) : CandMap :=
  let clean := onlyDigits m
  if isBoletoLength clean.length then
    mapSet uniques clean { type := .BOLETO, raw := m, clean := clean }
  else uniques

/-- Body of the second loop of `findBoletoCandidates`. -/
def directStep (uniques : CandMap) (m : Str) : CandMap :=
  if isBoletoLength m.length then
    mapSet uniques m { type := .BOLETO, raw := m, clean := m }
  else uniques

/-- `findBoletoCandidates`. -/
def findBoletoCandidates (text : Str) : List Candidate :=
  let t := normalizeText text
  let matched := matchAll boletoRunAt t
  let uniques := matched.foldl boletoStep []
  let directDigits := matchAll directDigitsAt t
  let uniques := directDigits.foldl directStep uniques
  mapValues uniques

/-- Body of the loop of `findPixCopiaECola`. -/
def pixStep (uniques : CandMap) (m : Str) : CandMap :=
  let clean := trim m
  if 30 ≤ clean.length then
    mapSet uniques clean { type := .PIX, raw := clean, clean := clean }
  else uniques

/-- `findPixCopiaECola`. -/
def findPixCopiaECola (text : Str) : List Candidate :=
  let t := replaceAll whiteSpaceAt (fun _ => []) (normalizeText text)
  let matched := matchAll pixAt t
  let uniques := matched.foldl pixStep []
  mapValues uniques

/-- `formatBoleto`. -/
def formatBoleto (digits : Str) : Str :=
  let s := onlyDigits digits
  trim (replaceAll fiveAt (fun m => m ++ [' ']) s)

/-! ## The page state

Of the page only what the claims speak about is kept: the list `found`, the
index `selectedIndex`, the text of the output element and the kind of the
status line.  The chips, the hint and the status sentence are not modelled. -/

/-- The kind passed to `setStatus`. -/
inductive StatusKind
  | ok
  | bad
  | warn
  deriving DecidableEq, Repr

/-- The mutable state of the page the engine writes. -/
structure Page where
  found : List Candidate
  selectedIndex : Int
  output : Str
  status : StatusKind
  deriving DecidableEq, Repr

/-- `found[selectedIndex]`: `undefined` outside the array. -/
def Page.item (p : Page) : Option Candidate :=
  if 0 ≤ p.selectedIndex then p.found.get? p.selectedIndex.toNat else none

/-- The text `(nada ainda)` of an empty output. -/
def nothingYet : Str := "(nada ainda)".toList

/-- `showSelected`. -/
def showSelected (p : Page) : Page :=
  match p.item with
  | none => p
  | some item =>
    let p := { p with output := item.clean }
    if item.type = .BOLETO && !isBoletoLength item.clean.length then
      { p with status := .warn }
    else p

/-- `renderFound`. -/
def renderFound (p : Page) : Page :=
  if p.found.length = 0 then
    { p with status := .bad, output := nothingYet, selectedIndex := -1 }
  else
    let p := { p with status := .ok }
    let p := if p.selectedIndex = -1 then { p with selectedIndex := 0 } else p
    showSelected p

/-- `extract`, the text of the input element being `text`. -/
def extract (p : Page) (text : Str) : Page :=
  let boletos := findBoletoCandidates text
  let pix := findPixCopiaECola text
  let found := boletos ++ pix
  renderFound { p with found := found, selectedIndex := if found.length ≠ 0 then 0 else -1 }

/-- The click handler of `btnFormat`. -/
def btnFormat (p : Page) : Page :=
  match p.item with
  | none => p
  | some item =>
    if item.type = .BOLETO then
      { p with output := formatBoleto item.clean, status := .ok }
    else { p with status := .warn }

/-! ## The texts of the scenarios -/

/-- The boleto line of the built-in example. -/
def exampleBoleto : Str :=
  "34191.79001 01043.510047 91020.150008 7 92110000031000".toList

/-- The PIX payload of the built-in example. -/
def examplePix : Str :=
  "00020126580014BR.GOV.BCB.PIX0136chavepix-exemplo@seguro.com5204000053039865802BR5920SEGURADORA EXEMPLO6009SAO PAULO62100506ABC1236304BEEF".toList

/-- The message the example button puts into the input. -/
def exampleMessage : Str :=
  "Olá! Segue o boleto do seu seguro.\nLinha digitável: ".toList ++ exampleBoleto ++
  "\nVencimento: 15/01/2026\nOu pague via PIX copia e cola:\n".toList ++ examplePix ++
  "\nObrigado(a)!".toList

/-! ## Definitions used to state and prove the properties -/

/-- What the first replacement of `normalizeText` does to one character. -/
def nbspToSpace (c : Char) : Char := if c.toNat == 160 then ' ' else c

/-- A matcher whose matches consist of characters of one class only. -/
def MatchesWithin (matchAt : Str → Option Nat) (cls : Char → Bool) : Prop :=
  ∀ s n, matchAt s = some n → n ≤ s.length ∧ ∀ c ∈ s.take n, cls c = true

/-- The keys of a map, in insertion order. -/
def mapKeys (m : CandMap) : List Str := m.map Prod.fst

/-- The map `uniques` of `findBoletoCandidates` after its two loops, `t` being
the normalized text. -/
def boletoMap (t : Str) : CandMap :=
  (matchAll directDigitsAt t).foldl directStep ((matchAll boletoRunAt t).foldl boletoStep [])

/-- What an entry of the boleto map looks like. -/
def BoletoEntry (e : Str × Candidate) : Prop :=
  e.2.type = CodeType.BOLETO ∧ e.2.clean = e.1 ∧ (∀ c ∈ e.1, isDigit c = true) ∧
  isBoletoLength e.1.length = true ∧ e.2.clean = onlyDigits e.2.raw

/-- A separator of a digitable line: a dot, a hyphen or a white space character. -/
def isSeparator (c : Char) : Bool := c.toNat == 46 || c.toNat == 45 || isWhiteSpace c

/-- The digit string `D` written with the strings of `seps`, in order, between
its consecutive digits (nothing where `seps` has run out). -/
def withSeparators : Str → List Str → Str
  | [], _ => []
  | [d], _ => [d]
  | d :: e :: ds, seps => d :: (seps.headD [] ++ withSeparators (e :: ds) seps.tail)

/-- The 47 digits of the boleto line of the built-in example. -/
def exampleDigits : Str := "34191790010104351004791020150008792110000031000".toList

/-- The separators of the boleto line of the built-in example. -/
def exampleSeparators : List Str :=
  [[], [], [], [], ['.'], [], [], [], [], [' '], [], [], [], [], ['.'], [], [], [], [], [],
   [' '], [], [], [], [], ['.'], [], [], [], [], [], [' '], [' '], [], [], [], [], [], [], [],
   [], [], [], [], [], []]

/-- Going forward over dots, hyphens and white space, one reaches the end of
the text or a character that is no digit. -/
def noDigitAfter : Str → Bool
  | [] => true
  | c :: rest => if isSeparator c then noDigitAfter rest else !isDigit c

/-- Going backward over dots, hyphens and white space, one reaches the start
of the text or a character that is no digit. -/
def noDigitBefore (A : Str) : Bool := noDigitAfter A.reverse

/-- A bare string `D` between `A` and `C` stands where the scan of bare digits
cuts a block: the digits that end `A` number a multiple of 48 (none in
particular), and `D` has 48 digits or `C` does not start with a digit. -/
def bareBlock (A D C : Str) : Bool :=
  ((A.reverse.takeWhile isDigit).length % 48 == 0) &&
  (D.length == 48 ||
    match C.head? with
    | some c => !isDigit c
    | none => true)

/-- The candidates of a list whose clean value is `D`. -/
def withClean (cs : List Candidate) (D : Str) : List Candidate :=
  cs.filter (fun c => decide (c.clean = D))

/-- The text in which `findPixCopiaECola` searches: normalized, all white space
deleted. -/
def pixText (text : Str) : Str :=
  replaceAll whiteSpaceAt (fun _ => []) (normalizeText text)

/-- The map `uniques` of `findPixCopiaECola` after its loop, `t` being the text
searched. -/
def pixMap (t : Str) : CandMap := (matchAll pixAt t).foldl pixStep []

/-- What an entry of the PIX map of the text `t` looks like. -/
def PixEntry (t : Str) (e : Str × Candidate) : Prop :=
  e.2.type = CodeType.PIX ∧ e.2.clean = e.1 ∧ e.2.raw = e.2.clean ∧ pixMarker <+: e.1 ∧
  (∀ c ∈ e.1, isAlnum c = true) ∧ 30 ≤ e.1.length ∧ e.1 <:+: t

/-- A span that can hold a boleto line: at least 36 characters, all digits,
dots, hyphens or white space, the first and the last a digit. -/
def IsBoletoSpan (s : Str) : Prop :=
  36 ≤ s.length ∧ (∃ a, s.head? = some a ∧ isDigit a = true) ∧
  (∃ b, s.getLast? = some b ∧ isDigit b = true) ∧ ∀ c ∈ s, isBoletoChar c = true

/-- The state of the page before anything is extracted. -/
def initialPage : Page :=
  { found := [], selectedIndex := -1, output := nothingYet, status := StatusKind.warn }

/-- The text with every space deleted. -/
def removeSpaces (s : Str) : Str := s.filter (fun c => !(c == ' '))

/-- The grouping as the specification words it: the characters in blocks of 5,
one space between two blocks, no space after the last block (which may be
shorter). -/
def groupsOfFive : Str → Str
  | a :: b :: c :: d :: e :: tl =>
    match tl with
    | [] => [a, b, c, d, e]
    | _ :: _ => a :: b :: c :: d :: e :: ' ' :: groupsOfFive tl
  | l => l

/-! ## Character class facts -/

theorem isDigit_nbspToSpace (c : Char) : isDigit (nbspToSpace c) = isDigit c := by
  unfold nbspToSpace
  split
  · rename_i h
    have h' : c.toNat = 160 := by simpa using h
    simp [isDigit, h']
  · rfl

theorem isWhiteSpace_nbspToSpace (c : Char) :
    isWhiteSpace (nbspToSpace c) = isWhiteSpace c := by
  unfold nbspToSpace
  split
  · rename_i h
    have h' : c.toNat = 160 := by simpa using h
    simp [isWhiteSpace, h']
  · rfl

theorem isBoletoChar_nbspToSpace (c : Char) :
    isBoletoChar (nbspToSpace c) = isBoletoChar c := by
  unfold nbspToSpace
  split
  · rename_i h
    have h' : c.toNat = 160 := by simpa using h
    simp [isBoletoChar, isWhiteSpace, isDigit, h']
  · rfl

theorem isBoletoChar_of_isDigit {c : Char} (h : isDigit c = true) : isBoletoChar c = true := by
  simp [isBoletoChar, h]

theorem not_isWhiteSpace_of_isAlnum {c : Char} (h : isAlnum c = true) :
    isWhiteSpace c = false := by
  simp only [isAlnum, Bool.or_eq_true, Bool.and_eq_true, decide_eq_true_eq] at h
  simp only [isWhiteSpace, Bool.or_eq_false_iff, Bool.and_eq_false_iff, decide_eq_false_iff_not,
    beq_eq_false_iff_ne, ne_eq]
  omega

theorem isAlnum_of_isDigit {c : Char} (h : isDigit c = true) : isAlnum c = true := by
  simp only [isDigit, Bool.and_eq_true, decide_eq_true_eq] at h
  simp only [isAlnum, Bool.or_eq_true, Bool.and_eq_true, decide_eq_true_eq]
  omega

theorem not_isWhiteSpace_of_isDigit {c : Char} (h : isDigit c = true) :
    isWhiteSpace c = false :=
  not_isWhiteSpace_of_isAlnum (isAlnum_of_isDigit h)

theorem nbspToSpace_of_not_isWhiteSpace {c : Char} (h : isWhiteSpace c = false) :
    nbspToSpace c = c := by
  unfold nbspToSpace
  split
  · rename_i h1
    have h' : c.toNat = 160 := by simpa using h1
    simp [isWhiteSpace, h'] at h
  · rfl

theorem isDotChar_of_isDigit {c : Char} (h : isDigit c = true) : isDotChar c = true := by
  simp only [isDigit, Bool.and_eq_true, decide_eq_true_eq] at h
  simp only [isDotChar, Bool.not_eq_true', Bool.or_eq_false_iff, beq_eq_false_iff_ne, ne_eq]
  omega

/-! ## The replacements as maps and filters -/

theorem replaceAllAux_nbsp (l : Str) :
    replaceAllAux nbspAt (fun _ => [' ']) 0 l = l.map nbspToSpace := by
  induction l with
  | nil => rfl
  | cons c rest ih =>
    unfold replaceAllAux
    by_cases h : (c.toNat == 160) = true
    · simp [nbspAt, h, ih, nbspToSpace]
    · simp [nbspAt, h, ih, nbspToSpace]

theorem drop_length_takeWhile (p : Char → Bool) (l : Str) :
    l.drop (l.takeWhile p).length = l.dropWhile p := by
  induction l with
  | nil => rfl
  | cons d rest ih =>
    by_cases hd : p d = true
    · simp [List.takeWhile_cons, List.dropWhile_cons, hd, ih]
    · simp [List.takeWhile_cons, List.dropWhile_cons, hd]

theorem filter_not_dropWhile (p : Char → Bool) (l : Str) :
    (l.dropWhile p).filter (fun c => !p c) = l.filter (fun c => !p c) := by
  induction l with
  | nil => rfl
  | cons d rest ih =>
    by_cases hd : p d = true
    · simp [List.dropWhile_cons, hd, ih]
    · simp [List.dropWhile_cons, hd]

theorem replaceAllAux_run (cls : Char → Bool) (l : Str) (skip : Nat) :
    replaceAllAux (runAt cls) (fun _ => []) skip l
      = (l.drop skip).filter (fun c => !cls c) := by
  induction l generalizing skip with
  | nil => simp [replaceAllAux]
  | cons c rest ih =>
    cases skip with
    | succ k => simp [replaceAllAux, ih]
    | zero =>
      unfold replaceAllAux
      by_cases h : cls c = true
      · have : runAt cls (c :: rest) = some ((rest.takeWhile cls).length + 1) := by
          simp [runAt, List.takeWhile_cons, h]
        rw [this]
        simp only [List.nil_append, ih, List.drop_zero]
        rw [List.filter_cons_of_neg (by simp [h]), drop_length_takeWhile,
          filter_not_dropWhile]
      · have : runAt cls (c :: rest) = none := by
          simp [runAt, List.takeWhile_cons, h]
        rw [this]
        simp [ih, h]

theorem onlyDigits_eq_filter (s : Str) : onlyDigits s = s.filter isDigit := by
  unfold onlyDigits replaceAll nonDigitsAt
  rw [replaceAllAux_run]
  simp

theorem normalizeText_eq (t : Str) : normalizeText t = trim (t.map nbspToSpace) := by
  unfold normalizeText replaceAll
  rw [replaceAllAux_nbsp]

/-! ## Trimming -/

theorem dropWhile_append_cons (p : Char → Bool) (A : Str) (b : Char) (B : Str)
    (hb : p b = false) : (A ++ b :: B).dropWhile p = A.dropWhile p ++ b :: B := by
  induction A with
  | nil => simp [List.dropWhile_cons, hb]
  | cons a A ih =>
    by_cases ha : p a = true
    · simp [List.dropWhile_cons, ha, ih]
    · simp [List.dropWhile_cons, ha]

theorem rdropWhile_append_cons (p : Char → Bool) (A : Str) (b : Char) (B : Str)
    (hb : p b = false) : (A ++ b :: B).rdropWhile p = A ++ b :: B.rdropWhile p := by
  unfold List.rdropWhile
  rw [List.reverse_append, List.reverse_cons, List.append_assoc, List.singleton_append,
    dropWhile_append_cons p _ b _ hb]
  simp

theorem filter_not_rdropWhile (p : Char → Bool) (l : Str) :
    (l.rdropWhile p).filter (fun c => !p c) = l.filter (fun c => !p c) := by
  unfold List.rdropWhile
  rw [List.filter_reverse, filter_not_dropWhile, List.filter_reverse, List.reverse_reverse]

theorem filter_not_trim (l : Str) :
    (trim l).filter (fun c => !isWhiteSpace c) = l.filter (fun c => !isWhiteSpace c) := by
  unfold trim
  rw [filter_not_rdropWhile, filter_not_dropWhile]

theorem dropWhile_eq_self_of_all_false (p : Char → Bool) (l : Str)
    (h : ∀ c ∈ l, p c = false) : l.dropWhile p = l := by
  cases l with
  | nil => rfl
  | cons a l => simp [List.dropWhile_cons, h a (List.mem_cons_self _ _)]

theorem rdropWhile_eq_self_of_all_false (p : Char → Bool) (l : Str)
    (h : ∀ c ∈ l, p c = false) : l.rdropWhile p = l := by
  unfold List.rdropWhile
  rw [dropWhile_eq_self_of_all_false p l.reverse (fun c hc => h c (List.mem_reverse.mp hc))]
  simp

theorem trim_eq_self_of_all_false (l : Str) (h : ∀ c ∈ l, isWhiteSpace c = false) :
    trim l = l := by
  unfold trim
  rw [dropWhile_eq_self_of_all_false _ _ h, rdropWhile_eq_self_of_all_false _ _ h]

/-- Trimming a text leaves a piece that starts and ends with a character that
is no white space where it is, and trims what stands before and after it. -/
theorem trim_frame (A M C : Str) (hM : M ≠ [])
    (hh : ∀ c ∈ M.head?, isWhiteSpace c = false)
    (hl : ∀ c ∈ M.getLast?, isWhiteSpace c = false) :
    trim (A ++ M ++ C) = A.dropWhile isWhiteSpace ++ M ++ C.rdropWhile isWhiteSpace := by
  unfold trim
  obtain ⟨m, M1, rfl⟩ := List.exists_cons_of_ne_nil hM
  have hm : isWhiteSpace m = false := hh m (by simp)
  rw [List.append_assoc, List.cons_append, dropWhile_append_cons _ _ _ _ hm]
  obtain ⟨M2, z, hz⟩ : ∃ M2 z, m :: M1 = M2 ++ [z] :=
    ⟨(m :: M1).dropLast, (m :: M1).getLast (by simp), by
      rw [List.dropLast_append_getLast]⟩
  have hz' : isWhiteSpace z = false := by
    apply hl z
    rw [hz]
    simp
  have e : List.dropWhile isWhiteSpace A ++ m :: (M1 ++ C)
      = (List.dropWhile isWhiteSpace A ++ M2) ++ z :: C := by
    rw [← List.cons_append, hz]
    simp
  rw [e, rdropWhile_append_cons _ _ _ _ hz']
  rw [hz]
  simp

/-! ## Facts about the global scan -/

theorem matchAllAux_cons_some (matchAt : Str → Option Nat) (c : Char) (rest : Str) (n : Nat)
    (h : matchAt (c :: rest) = some n) :
    matchAllAux matchAt 0 (c :: rest)
      = (c :: rest).take n :: matchAllAux matchAt (n - 1) rest := by
  rw [matchAllAux, h]

theorem matchAllAux_cons_none (matchAt : Str → Option Nat) (c : Char) (rest : Str)
    (h : matchAt (c :: rest) = none) :
    matchAllAux matchAt 0 (c :: rest) = matchAllAux matchAt 0 rest := by
  rw [matchAllAux, h]

theorem matchAllAux_of_length_le (matchAt : Str → Option Nat) (l : Str) (skip : Nat)
    (h : l.length ≤ skip) : matchAllAux matchAt skip l = [] := by
  induction l generalizing skip with
  | nil => simp [matchAllAux]
  | cons c rest ih =>
    cases skip with
    | zero => simp at h
    | succ k =>
      simp only [matchAllAux]
      exact ih k (by simpa using h)

/-- Every match of a scan is cut by the matcher from a suffix of the text. -/
theorem matchAllAux_mem (matchAt : Str → Option Nat) (l : Str) (skip : Nat) (x : Str)
    (h : x ∈ matchAllAux matchAt skip l) :
    ∃ pre s n, l = pre ++ s ∧ s ≠ [] ∧ matchAt s = some n ∧ x = s.take n := by
  induction l generalizing skip with
  | nil => simp [matchAllAux] at h
  | cons c rest ih =>
    cases skip with
    | succ k =>
      simp only [matchAllAux] at h
      obtain ⟨pre, s, n, h1, h2, h3, h4⟩ := ih k h
      exact ⟨c :: pre, s, n, by simp [h1], h2, h3, h4⟩
    | zero =>
      cases hm : matchAt (c :: rest) with
      | none =>
        rw [matchAllAux_cons_none _ _ _ hm] at h
        obtain ⟨pre, s, n, h1, h2, h3, h4⟩ := ih 0 h
        exact ⟨c :: pre, s, n, by simp [h1], h2, h3, h4⟩
      | some n =>
        rw [matchAllAux_cons_some _ _ _ _ hm] at h
        rcases List.mem_cons.mp h with h | h
        · exact ⟨[], c :: rest, n, rfl, by simp, hm, h⟩
        · obtain ⟨pre, s, n, h1, h2, h3, h4⟩ := ih (n - 1) h
          exact ⟨c :: pre, s, n, by simp [h1], h2, h3, h4⟩

/-- When no match that starts inside `P` reaches beyond `P`, the scan of
`P ++ S` ends with the scan of `S`. -/
theorem matchAllAux_append (matchAt : Str → Option Nat) (P S : Str) (skip : Nat)
    (hloc : ∀ P1 c P2 n, P = P1 ++ c :: P2 → matchAt (c :: P2 ++ S) = some n →
      n ≤ (c :: P2).length)
    (hskip : skip ≤ P.length) :
    ∃ X, matchAllAux matchAt skip (P ++ S) = X ++ matchAllAux matchAt 0 S := by
  induction P generalizing skip with
  | nil =>
    have : skip = 0 := by simpa using hskip
    subst this
    exact ⟨[], rfl⟩
  | cons c P ih =>
    have hloc' : ∀ P1 d P2 n, P = P1 ++ d :: P2 → matchAt (d :: P2 ++ S) = some n →
        n ≤ (d :: P2).length := fun P1 d P2 n h1 h2 =>
      hloc (c :: P1) d P2 n (by simp [h1]) h2
    cases skip with
    | succ k =>
      simp only [List.cons_append, matchAllAux]
      exact ih k hloc' (by simpa using hskip)
    | zero =>
      simp only [List.cons_append]
      cases hm : matchAt (c :: (P ++ S)) with
      | none =>
        rw [matchAllAux_cons_none _ _ _ hm]
        exact ih 0 hloc' (Nat.zero_le _)
      | some n =>
        have hn : n ≤ (c :: P).length := hloc [] c P n rfl hm
        obtain ⟨X, hX⟩ := ih (n - 1) hloc' (by simp at hn; omega)
        rw [matchAllAux_cons_some _ _ _ _ hm, hX]
        exact ⟨(c :: (P ++ S)).take n :: X, by simp⟩

/-- A match of characters of a class cannot reach beyond a text that ends with
a character outside the class. -/
theorem matchAllAux_append_of_within (matchAt : Str → Option Nat) (cls : Char → Bool)
    (hw : MatchesWithin matchAt cls) (P S : Str)
    (hP : ∀ c ∈ P.getLast?, cls c = false) :
    ∃ X, matchAll matchAt (P ++ S) = X ++ matchAll matchAt S := by
  unfold matchAll
  apply matchAllAux_append matchAt P S 0 _ (Nat.zero_le _)
  intro P1 c P2 n hPeq hm
  obtain ⟨_, hcls⟩ := hw _ _ hm
  by_contra hlt
  have hlt : (c :: P2).length < n := Nat.lt_of_not_le hlt
  have hlast : (c :: P2).getLast (by simp) ∈ (c :: P2 ++ S).take n := by
    have h1 : (c :: P2) <+: (c :: P2 ++ S).take n := by
      rw [List.prefix_take_iff]
      exact ⟨List.prefix_append _ _, Nat.le_of_lt hlt⟩
    exact h1.subset (List.getLast_mem _)
  have h2 : cls ((c :: P2).getLast (by simp)) = false := by
    apply hP
    rw [hPeq, List.getLast?_append_of_ne_nil _ (by simp), List.getLast?_eq_getLast]
    rfl
  rw [hcls _ hlast] at h2
  exact Bool.noConfusion h2

theorem matchAll_cons_of_match (matchAt : Str → Option Nat) (c : Char) (rest : Str) (n : Nat)
    (h : matchAt (c :: rest) = some n) :
    matchAll matchAt (c :: rest)
      = (c :: rest).take n :: matchAllAux matchAt (n - 1) rest := by
  unfold matchAll
  exact matchAllAux_cons_some _ _ _ _ h

/-! ## What the matchers match -/

theorem mem_take_of_le_takeWhile (p : Char → Bool) (l : Str) (j : Nat)
    (hj : j ≤ (l.takeWhile p).length) : ∀ c ∈ l.take j, p c = true := by
  intro c hc
  have h1 : l.take j <+: l.takeWhile p :=
    List.prefix_of_prefix_length_le (List.take_prefix _ _) (List.takeWhile_prefix _)
      (by simp; omega)
  exact List.mem_takeWhile_imp (h1.subset hc)

theorem digitAt_eq_true {s : Str} {k : Nat} (h : digitAt s k = true) :
    ∃ d, s[k]? = some d ∧ isDigit d = true := by
  unfold digitAt at h
  rw [List.get?_eq_getElem?] at h
  cases hd : s[k]? with
  | none => simp [hd] at h
  | some d => exact ⟨d, rfl, by simpa [hd] using h⟩

theorem boletoBacktrack_sound (rest : Str) (k j : Nat)
    (h : boletoBacktrack rest k = some j) : 35 ≤ j ∧ j ≤ k ∧ digitAt rest j = true := by
  induction k with
  | zero => simp [boletoBacktrack] at h
  | succ k ih =>
    rw [boletoBacktrack] at h
    by_cases h35 : 35 ≤ k + 1
    · rw [if_pos h35] at h
      by_cases hd : digitAt rest (k + 1) = true
      · rw [if_pos hd] at h
        have : k + 1 = j := by simpa using h
        subst this
        exact ⟨h35, Nat.le_refl _, hd⟩
      · rw [if_neg hd] at h
        obtain ⟨h1, h2, h3⟩ := ih h
        exact ⟨h1, Nat.le_succ_of_le h2, h3⟩
    · rw [if_neg h35] at h
      exact Option.noConfusion h

theorem boletoBacktrack_eq (rest : Str) (k j : Nat) (h35 : 35 ≤ j) (hjk : j ≤ k)
    (hd : digitAt rest j = true)
    (hlast : ∀ i, j < i → i ≤ k → digitAt rest i = false) :
    boletoBacktrack rest k = some j := by
  induction k with
  | zero => omega
  | succ k ih =>
    rw [boletoBacktrack, if_pos (by omega)]
    by_cases hj : j = k + 1
    · subst hj
      rw [if_pos hd]
    · have hk : digitAt rest (k + 1) = false := hlast (k + 1) (by omega) (Nat.le_refl _)
      rw [hk]
      simp only [Bool.false_eq_true, if_false]
      exact ih (by omega) (fun i h1 h2 => hlast i h1 (Nat.le_succ_of_le h2))

/-- A match of the separator-tolerant pattern has at least 37 characters, all
of the class `[\d\.\-\s]`, the first and the last of them digits. -/
theorem boletoRunAt_spec (s : Str) (n : Nat) (h : boletoRunAt s = some n) :
    37 ≤ n ∧ n ≤ s.length ∧ (∀ c ∈ s.take n, isBoletoChar c = true) ∧
    (∃ a, (s.take n).head? = some a ∧ isDigit a = true) ∧
    (∃ b, (s.take n).getLast? = some b ∧ isDigit b = true) := by
  cases s with
  | nil => simp [boletoRunAt] at h
  | cons c rest =>
    rw [boletoRunAt] at h
    by_cases hc : isDigit c = true
    · rw [if_pos hc] at h
      obtain ⟨j, hj, hn⟩ := Option.map_eq_some'.mp h
      subst hn
      obtain ⟨h35, hjk, hd⟩ := boletoBacktrack_sound _ _ _ hj
      obtain ⟨d, hget, hdig⟩ := digitAt_eq_true hd
      have hlt : j < rest.length := by
        by_contra hge
        rw [List.getElem?_eq_none (by omega)] at hget
        exact Option.noConfusion hget
      have htake : (c :: rest).take (j + 2) = c :: (rest.take j ++ [d]) := by
        rw [List.take_succ_cons, List.take_succ, hget]
        rfl
      refine ⟨by omega, by simp; omega, ?_, ?_, ?_⟩
      · rw [htake]
        intro x hx
        rcases List.mem_cons.mp hx with hx | hx
        · rw [hx]
          exact isBoletoChar_of_isDigit hc
        · rcases List.mem_append.mp hx with hx | hx
          · exact mem_take_of_le_takeWhile _ _ _ hjk x hx
          · rw [List.mem_singleton.mp hx]
            exact isBoletoChar_of_isDigit hdig
      · exact ⟨c, by rw [htake]; rfl, hc⟩
      · refine ⟨d, ?_, hdig⟩
        rw [htake, ← List.cons_append, List.getLast?_append_of_ne_nil _ (by simp)]
        rfl
    · rw [if_neg hc] at h
      exact Option.noConfusion h

theorem boletoRunAt_within : MatchesWithin boletoRunAt isBoletoChar := fun s n h =>
  ⟨(boletoRunAt_spec s n h).2.1, (boletoRunAt_spec s n h).2.2.1⟩

/-- A match of `\d{46,48}` is 46 to 48 digits. -/
theorem directDigitsAt_spec (s : Str) (n : Nat) (h : directDigitsAt s = some n) :
    46 ≤ n ∧ n ≤ 48 ∧ n ≤ s.length ∧ (s.take n).length = n ∧
    ∀ c ∈ s.take n, isDigit c = true := by
  unfold directDigitsAt at h
  simp only at h
  by_cases h46 : 46 ≤ ((s.take 48).takeWhile isDigit).length
  · rw [if_pos h46] at h
    have hn : ((s.take 48).takeWhile isDigit).length = n := by simpa using h
    have hpre : (s.take 48).takeWhile isDigit <+: s :=
      (List.takeWhile_prefix _).trans (List.take_prefix _ _)
    have hle1 : ((s.take 48).takeWhile isDigit).length ≤ (s.take 48).length :=
      (List.takeWhile_prefix _).length_le
    have hle2 : n ≤ s.length := hn ▸ hpre.length_le
    have heq : s.take n = (s.take 48).takeWhile isDigit := by
      rw [List.prefix_iff_eq_take.mp hpre, hn]
    refine ⟨hn ▸ h46, ?_, hle2, by simp [hle2], ?_⟩
    · simp at hle1
      omega
    · intro c hc
      rw [heq] at hc
      exact List.mem_takeWhile_imp hc
  · rw [if_neg h46] at h
    exact Option.noConfusion h

theorem directDigitsAt_within : MatchesWithin directDigitsAt isDigit := fun s n h =>
  ⟨(directDigitsAt_spec s n h).2.2.1, (directDigitsAt_spec s n h).2.2.2.2⟩

/-- A match of the PIX pattern is the marker followed by at least 20 letters
and digits. -/
theorem pixAt_spec (s : Str) (n : Nat) (h : pixAt s = some n) :
    pixMarker <+: s ∧ ∃ body, s.take n = pixMarker ++ body ∧ 20 ≤ body.length ∧
      ∀ c ∈ body, isAlnum c = true := by
  unfold pixAt at h
  by_cases hp : pixMarker.isPrefixOf s = true
  · rw [if_pos hp] at h
    simp only at h
    have hpre : pixMarker <+: s := List.isPrefixOf_iff_prefix.mp hp
    obtain ⟨s', rfl⟩ := hpre
    have hdrop : (pixMarker ++ s').drop 6 = s' := by
      rw [List.drop_append_of_le_length (by simp [pixMarker])]
      simp [pixMarker]
    rw [hdrop] at h
    by_cases h20 : 20 ≤ (s'.takeWhile isAlnum).length
    · rw [if_pos h20] at h
      have hn : 6 + (s'.takeWhile isAlnum).length = n := by simpa using h
      refine ⟨List.prefix_append _ _, s'.takeWhile isAlnum, ?_, h20, ?_⟩
      · rw [← hn, List.take_append_eq_append_take]
        have e1 : List.take (6 + (s'.takeWhile isAlnum).length) pixMarker = pixMarker := by
          apply List.take_of_length_le
          simp [pixMarker]
        have e2 : 6 + (s'.takeWhile isAlnum).length - pixMarker.length
            = (s'.takeWhile isAlnum).length := by
          simp [pixMarker]
        rw [e1, e2]
        congr 1
        exact (List.prefix_iff_eq_take.mp (List.takeWhile_prefix _)).symm
      · intro c hc
        exact List.mem_takeWhile_imp hc
    · rw [if_neg h20] at h
      exact Option.noConfusion h
  · rw [if_neg hp] at h
    exact Option.noConfusion h

/-! ## Facts about the map -/

theorem mem_mapSet_self (m : CandMap) (k : Str) (v : Candidate) : (k, v) ∈ mapSet m k v := by
  induction m with
  | nil => simp [mapSet]
  | cons e rest ih =>
    obtain ⟨k', v'⟩ := e
    rw [mapSet]
    by_cases h : k' = k
    · simp [h]
    · simp [h, ih]

theorem of_mem_mapSet (m : CandMap) (k : Str) (v : Candidate) (e : Str × Candidate)
    (h : e ∈ mapSet m k v) : e = (k, v) ∨ e ∈ m := by
  induction m with
  | nil =>
    left
    simpa [mapSet] using h
  | cons e' rest ih =>
    obtain ⟨k', v'⟩ := e'
    rw [mapSet] at h
    by_cases hk : k' = k
    · rw [if_pos hk] at h
      rcases List.mem_cons.mp h with h | h
      · exact Or.inl h
      · exact Or.inr (List.mem_cons_of_mem _ h)
    · rw [if_neg hk] at h
      rcases List.mem_cons.mp h with h | h
      · exact Or.inr (h ▸ List.mem_cons_self _ _)
      · rcases ih h with h | h
        · exact Or.inl h
        · exact Or.inr (List.mem_cons_of_mem _ h)

theorem mapKeys_mapSet (m : CandMap) (k : Str) (v : Candidate) :
    mapKeys (mapSet m k v) = if k ∈ mapKeys m then mapKeys m else mapKeys m ++ [k] := by
  induction m with
  | nil => simp [mapSet, mapKeys]
  | cons e rest ih =>
    obtain ⟨k', v'⟩ := e
    by_cases hk : k' = k
    · subst hk
      simp [mapSet, mapKeys]
    · have hk' : ¬ k = k' := fun h => hk h.symm
      have e1 : mapSet ((k', v') :: rest) k v = (k', v') :: mapSet rest k v := by
        simp [mapSet, hk]
      rw [e1]
      simp only [mapKeys, List.map_cons, List.mem_cons, hk', false_or] at ih ⊢
      rw [ih]
      split <;> simp

theorem mem_mapKeys_mapSet_self (m : CandMap) (k : Str) (v : Candidate) :
    k ∈ mapKeys (mapSet m k v) := by
  rw [mapKeys_mapSet]
  split
  · assumption
  · simp

theorem mem_mapKeys_mapSet_of_mem (m : CandMap) (k : Str) (v : Candidate) (k0 : Str)
    (h : k0 ∈ mapKeys m) : k0 ∈ mapKeys (mapSet m k v) := by
  rw [mapKeys_mapSet]
  split
  · assumption
  · exact List.mem_append_left _ h

theorem nodup_mapKeys_mapSet (m : CandMap) (k : Str) (v : Candidate)
    (h : (mapKeys m).Nodup) : (mapKeys (mapSet m k v)).Nodup := by
  rw [mapKeys_mapSet]
  split
  · assumption
  · rename_i hk
    exact List.Nodup.append h (List.nodup_singleton k) (by simpa using hk)

/-- A property of maps kept by every step of a loop holds after the loop. -/
theorem foldl_invariant {P : CandMap → Prop} (step : CandMap → Str → CandMap) (l : List Str)
    (hstep : ∀ u m, m ∈ l → P u → P (step u m)) (u : CandMap) (hu : P u) :
    P (l.foldl step u) := by
  induction l generalizing u with
  | nil => exact hu
  | cons a l ih =>
    rw [List.foldl_cons]
    exact ih (fun u m hm => hstep u m (List.mem_cons_of_mem _ hm)) _
      (hstep u a (List.mem_cons_self _ _) hu)

/-- A key that one step of a loop inserts, no step removing keys, is a key
after the loop. -/
theorem foldl_mem_mapKeys (step : CandMap → Str → CandMap) (k : Str) (m0 : Str)
    (hmono : ∀ u m, k ∈ mapKeys u → k ∈ mapKeys (step u m))
    (hins : ∀ u, k ∈ mapKeys (step u m0)) (l : List Str) (hm : m0 ∈ l) (u : CandMap) :
    k ∈ mapKeys (l.foldl step u) := by
  induction l generalizing u with
  | nil => simp at hm
  | cons a l ih =>
    rw [List.foldl_cons]
    rcases List.mem_cons.mp hm with h | h
    · subst h
      exact foldl_invariant step l (fun u m _ hu => hmono u m hu) _ (hins u)
    · exact ih h _

/-! ## The map of `findBoletoCandidates` -/

theorem isBoletoLength_iff (n : Nat) : isBoletoLength n = true ↔ n = 46 ∨ n = 47 ∨ n = 48 := by
  simp [isBoletoLength]

theorem findBoletoCandidates_eq (text : Str) :
    findBoletoCandidates text = mapValues (boletoMap (normalizeText text)) := rfl

theorem boletoStep_entries (u : CandMap) (m : Str) (h : ∀ e ∈ u, BoletoEntry e) :
    ∀ e ∈ boletoStep u m, BoletoEntry e := by
  intro e he
  unfold boletoStep at he
  simp only at he
  by_cases hl : isBoletoLength (onlyDigits m).length = true
  · rw [if_pos hl] at he
    rcases of_mem_mapSet _ _ _ _ he with he | he
    · subst he
      refine ⟨rfl, rfl, ?_, hl, rfl⟩
      intro c hc
      rw [onlyDigits_eq_filter] at hc
      exact (List.mem_filter.mp hc).2
    · exact h e he
  · rw [if_neg hl] at he
    exact h e he

theorem onlyDigits_of_digits (m : Str) (hm : ∀ c ∈ m, isDigit c = true) : onlyDigits m = m := by
  rw [onlyDigits_eq_filter]
  exact List.filter_eq_self.mpr hm

theorem directStep_entries (u : CandMap) (m : Str) (hm : ∀ c ∈ m, isDigit c = true)
    (h : ∀ e ∈ u, BoletoEntry e) : ∀ e ∈ directStep u m, BoletoEntry e := by
  intro e he
  unfold directStep at he
  by_cases hl : isBoletoLength m.length = true
  · rw [if_pos hl] at he
    rcases of_mem_mapSet _ _ _ _ he with he | he
    · subst he
      exact ⟨rfl, rfl, hm, hl, (onlyDigits_of_digits m hm).symm⟩
    · exact h e he
  · rw [if_neg hl] at he
    exact h e he

theorem boletoStep_keys (u : CandMap) (m k : Str) (h : k ∈ mapKeys u) :
    k ∈ mapKeys (boletoStep u m) := by
  unfold boletoStep
  simp only
  split
  · exact mem_mapKeys_mapSet_of_mem _ _ _ _ h
  · exact h

theorem directStep_keys (u : CandMap) (m k : Str) (h : k ∈ mapKeys u) :
    k ∈ mapKeys (directStep u m) := by
  unfold directStep
  split
  · exact mem_mapKeys_mapSet_of_mem _ _ _ _ h
  · exact h

theorem boletoStep_nodup (u : CandMap) (m : Str) (h : (mapKeys u).Nodup) :
    (mapKeys (boletoStep u m)).Nodup := by
  unfold boletoStep
  simp only
  split
  · exact nodup_mapKeys_mapSet _ _ _ h
  · exact h

theorem directStep_nodup (u : CandMap) (m : Str) (h : (mapKeys u).Nodup) :
    (mapKeys (directStep u m)).Nodup := by
  unfold directStep
  split
  · exact nodup_mapKeys_mapSet _ _ _ h
  · exact h

theorem matchAll_directDigits_digits (t m : Str) (hm : m ∈ matchAll directDigitsAt t) :
    (∀ c ∈ m, isDigit c = true) ∧ isBoletoLength m.length = true := by
  obtain ⟨pre, s, n, _, _, h3, h4⟩ := matchAllAux_mem _ _ _ _ hm
  obtain ⟨h46, h48, _, hlen, hd⟩ := directDigitsAt_spec s n h3
  subst h4
  refine ⟨hd, ?_⟩
  rw [isBoletoLength_iff, hlen]
  omega

theorem boletoMap_entries (t : Str) : ∀ e ∈ boletoMap t, BoletoEntry e := by
  unfold boletoMap
  apply foldl_invariant (P := fun u => ∀ e ∈ u, BoletoEntry e)
  · intro u m hm hu
    exact directStep_entries u m (matchAll_directDigits_digits t m hm).1 hu
  · apply foldl_invariant (P := fun u => ∀ e ∈ u, BoletoEntry e)
    · intro u m _ hu
      exact boletoStep_entries u m hu
    · intro e he
      simp at he

theorem boletoMap_nodup (t : Str) : (mapKeys (boletoMap t)).Nodup := by
  unfold boletoMap
  apply foldl_invariant (P := fun u => (mapKeys u).Nodup)
  · intro u m _ hu
    exact directStep_nodup u m hu
  · apply foldl_invariant (P := fun u => (mapKeys u).Nodup)
    · intro u m _ hu
      exact boletoStep_nodup u m hu
    · simp [mapKeys]

/-- A run of the first pass whose digits have an accepted length is a key. -/
theorem boletoMap_of_run (t m : Str) (hm : m ∈ matchAll boletoRunAt t)
    (hl : isBoletoLength (onlyDigits m).length = true) :
    onlyDigits m ∈ mapKeys (boletoMap t) := by
  unfold boletoMap
  apply foldl_invariant (P := fun u => onlyDigits m ∈ mapKeys u)
  · intro u x _ hu
    exact directStep_keys u x _ hu
  · apply foldl_mem_mapKeys boletoStep (onlyDigits m) m
    · intro u x hu
      exact boletoStep_keys u x _ hu
    · intro u
      unfold boletoStep
      simp only
      rw [if_pos hl]
      exact mem_mapKeys_mapSet_self _ _ _
    · exact hm

/-- A match of the second pass is a key. -/
theorem boletoMap_of_direct (t m : Str) (hm : m ∈ matchAll directDigitsAt t) :
    m ∈ mapKeys (boletoMap t) := by
  unfold boletoMap
  apply foldl_mem_mapKeys directStep m m
  · intro u x hu
    exact directStep_keys u x _ hu
  · intro u
    unfold directStep
    rw [if_pos (matchAll_directDigits_digits t m hm).2]
    exact mem_mapKeys_mapSet_self _ _ _
  · exact hm

theorem boletoMap_clean (t : Str) :
    (mapValues (boletoMap t)).map Candidate.clean = mapKeys (boletoMap t) := by
  unfold mapValues mapKeys
  rw [List.map_map]
  apply List.map_congr_left
  intro e he
  exact (boletoMap_entries t e he).2.1

/-- Every key of the boleto map is the clean value of a BOLETO candidate. -/
theorem candidate_of_key (t k : Str) (hk : k ∈ mapKeys (boletoMap t)) :
    ∃ c ∈ mapValues (boletoMap t), c.type = CodeType.BOLETO ∧ c.clean = k := by
  obtain ⟨e, he, rfl⟩ := List.mem_map.mp hk
  exact ⟨e.2, List.mem_map.mpr ⟨e, he, rfl⟩, (boletoMap_entries t e he).1,
    (boletoMap_entries t e he).2.1⟩

/-! ## A piece of text inside its surroundings -/

theorem takeWhile_eq_nil_of_head (p : Char → Bool) (l : Str)
    (h : ∀ c ∈ l.head?, p c = false) : l.takeWhile p = [] := by
  cases l with
  | nil => rfl
  | cons a l => simp [List.takeWhile_cons, h a (by simp)]

theorem head?_take_mem (l : Str) (n : Nat) (c : Char) (h : c ∈ (l.take n).head?) :
    c ∈ l.head? := by
  cases l with
  | nil => simp at h
  | cons a l =>
    cases n with
    | zero => simp at h
    | succ n => simpa using h

/-- The normalized text of a piece `M` that starts and ends with a character
that is no white space, standing between `A` and `C`. -/
theorem normalizeText_frame (A M C : Str) (hM : M ≠ [])
    (hh : ∀ c ∈ M.head?, isWhiteSpace c = false)
    (hl : ∀ c ∈ M.getLast?, isWhiteSpace c = false) :
    normalizeText (A ++ M ++ C)
      = (A.map nbspToSpace).dropWhile isWhiteSpace ++ M.map nbspToSpace
        ++ (C.map nbspToSpace).rdropWhile isWhiteSpace := by
  rw [normalizeText_eq, List.map_append, List.map_append]
  apply trim_frame
  · simpa using hM
  · intro c hc
    rw [List.head?_map] at hc
    obtain ⟨a, ha, rfl⟩ := Option.mem_map.mp hc
    rw [isWhiteSpace_nbspToSpace]
    exact hh a ha
  · intro c hc
    rw [List.getLast?_map] at hc
    obtain ⟨a, ha, rfl⟩ := Option.mem_map.mp hc
    rw [isWhiteSpace_nbspToSpace]
    exact hl a ha

/-- What stands before the piece still ends outside the class. -/
theorem getLast?_normalized_before (cls : Char → Bool)
    (hcls : ∀ c, cls (nbspToSpace c) = cls c) (A : Str)
    (h : ∀ c ∈ A.getLast?, cls c = false) :
    ∀ c ∈ ((A.map nbspToSpace).dropWhile isWhiteSpace).getLast?, cls c = false := by
  intro c hc
  have hsuf : (A.map nbspToSpace).dropWhile isWhiteSpace <:+ A.map nbspToSpace :=
    List.dropWhile_suffix _
  obtain ⟨X, hX⟩ := hsuf
  have hne : (A.map nbspToSpace).dropWhile isWhiteSpace ≠ [] := by
    intro h0
    rw [h0] at hc
    simp at hc
  have e : (A.map nbspToSpace).getLast? = some c := by
    rw [← hX, List.getLast?_append_of_ne_nil _ hne]
    exact hc
  rw [List.getLast?_map] at e
  obtain ⟨a, ha, rfl⟩ := Option.map_eq_some'.mp e
  rw [hcls]
  exact h a ha

/-- What stands after the piece still starts outside the class. -/
theorem head?_normalized_after (cls : Char → Bool)
    (hcls : ∀ c, cls (nbspToSpace c) = cls c) (C : Str)
    (h : ∀ c ∈ C.head?, cls c = false) :
    ∀ c ∈ ((C.map nbspToSpace).rdropWhile isWhiteSpace).head?, cls c = false := by
  intro c hc
  have hpre : (C.map nbspToSpace).rdropWhile isWhiteSpace <+: C.map nbspToSpace :=
    List.rdropWhile_prefix _ _
  obtain ⟨X, hX⟩ := hpre
  have e : (C.map nbspToSpace).head? = some c := by
    rw [← hX, List.head?_append_of_ne_nil]
    · exact hc
    · intro h0
      rw [h0] at hc
      simp at hc
  rw [List.head?_map] at e
  obtain ⟨a, ha, rfl⟩ := Option.map_eq_some'.mp e
  rw [hcls]
  exact h a ha

/-- A run of 46 to 48 digits delimited by characters that are no digits is a
match of the second pass. -/
theorem direct_found (A R C : Str)
    (hA : ∀ c ∈ A.getLast?, isDigit c = false)
    (hC : ∀ c ∈ C.head?, isDigit c = false)
    (hR : ∀ c ∈ R, isDigit c = true) (hlen : isBoletoLength R.length = true) :
    R ∈ matchAll directDigitsAt (A ++ R ++ C) := by
  rw [List.append_assoc]
  obtain ⟨X, hX⟩ := matchAllAux_append_of_within directDigitsAt isDigit directDigitsAt_within
    A (R ++ C) hA
  rw [hX]
  apply List.mem_append_right
  have hlen' := (isBoletoLength_iff _).mp hlen
  have htake : (R ++ C).take 48 = R ++ C.take (48 - R.length) := by
    rw [List.take_append_eq_append_take, List.take_of_length_le (by omega)]
  have htw : ((R ++ C).take 48).takeWhile isDigit = R := by
    rw [htake, List.takeWhile_append_of_pos hR,
      takeWhile_eq_nil_of_head _ _ (fun c hc => hC c (head?_take_mem _ _ _ hc)),
      List.append_nil]
  have hmatch : directDigitsAt (R ++ C) = some R.length := by
    unfold directDigitsAt
    simp only [htw]
    rw [if_pos (by omega)]
  cases R with
  | nil => simp at hlen'
  | cons r R' =>
    rw [List.cons_append] at hmatch ⊢
    rw [matchAll_cons_of_match _ _ _ _ hmatch, ← List.cons_append, List.take_left']
    · exact List.mem_cons_self _ _
    · rfl

/-! ## Digit strings written with separators -/

theorem isBoletoChar_of_isSeparator {c : Char} (h : isSeparator c = true) :
    isBoletoChar c = true := by
  simp only [isSeparator, Bool.or_eq_true] at h
  simp only [isBoletoChar, Bool.or_eq_true]
  tauto

theorem not_isDigit_of_isSeparator {c : Char} (h : isSeparator c = true) :
    isDigit c = false := by
  cases hd : isDigit c
  · rfl
  · have hw := not_isWhiteSpace_of_isDigit hd
    simp only [isDigit, Bool.and_eq_true, decide_eq_true_eq] at hd
    simp only [isSeparator, hw, Bool.or_false, Bool.or_eq_true, beq_iff_eq] at h
    omega

theorem withSeparators_spec (D : Str) (seps : List Str)
    (hD : ∀ c ∈ D, isDigit c = true) (hs : ∀ s ∈ seps, ∀ c ∈ s, isSeparator c = true) :
    (withSeparators D seps).head? = D.head? ∧
    (withSeparators D seps).getLast? = D.getLast? ∧
    (∀ c ∈ withSeparators D seps, isBoletoChar c = true) ∧
    (withSeparators D seps).filter isDigit = D := by
  induction D generalizing seps with
  | nil => simp [withSeparators]
  | cons d ds ih =>
    have hd : isDigit d = true := hD d (List.mem_cons_self _ _)
    cases ds with
    | nil =>
      refine ⟨rfl, rfl, ?_, ?_⟩
      · intro c hc
        simp only [withSeparators, List.mem_singleton] at hc
        rw [hc]
        exact isBoletoChar_of_isDigit hd
      · simp [withSeparators, hd]
    | cons e ds =>
      have hs' : ∀ s ∈ seps.tail, ∀ c ∈ s, isSeparator c = true :=
        fun s h => hs s (List.mem_of_mem_tail h)
      have hh : ∀ c ∈ seps.headD [], isSeparator c = true := by
        cases seps with
        | nil => simp
        | cons s ss => exact hs s (List.mem_cons_self _ _)
      obtain ⟨i1, i2, i3, i4⟩ := ih seps.tail (fun c hc => hD c (List.mem_cons_of_mem _ hc)) hs'
      have hne : withSeparators (e :: ds) seps.tail ≠ [] := by
        intro h0
        rw [h0] at i1
        simp at i1
      have hfs : (seps.headD []).filter isDigit = [] := by
        rw [List.filter_eq_nil_iff]
        intro c hc
        rw [not_isDigit_of_isSeparator (hh c hc)]
        exact Bool.false_ne_true
      rw [withSeparators]
      refine ⟨rfl, ?_, ?_, ?_⟩
      · rw [← List.cons_append, List.getLast?_append_of_ne_nil _ hne, i2,
          List.getLast?_cons_cons]
      · intro c hc
        rcases List.mem_cons.mp hc with hc | hc
        · rw [hc]
          exact isBoletoChar_of_isDigit hd
        · rcases List.mem_append.mp hc with hc | hc
          · exact isBoletoChar_of_isSeparator (hh c hc)
          · exact i3 c hc
      · rw [List.filter_cons_of_pos hd, List.filter_append, hfs, List.nil_append, i4]

theorem isBoletoChar_eq (c : Char) : isBoletoChar c = (isDigit c || isSeparator c) := by
  simp [isBoletoChar, isSeparator, Bool.or_assoc]

theorem isSeparator_nbspToSpace (c : Char) :
    isSeparator (nbspToSpace c) = isSeparator c := by
  unfold nbspToSpace
  split
  · rename_i h
    have h' : c.toNat = 160 := by simpa using h
    simp [isSeparator, isWhiteSpace, h']
  · rfl

theorem noDigitAfter_map (C : Str) : noDigitAfter (C.map nbspToSpace) = noDigitAfter C := by
  induction C with
  | nil => rfl
  | cons c C ih =>
    simp only [List.map_cons, noDigitAfter, isSeparator_nbspToSpace, isDigit_nbspToSpace, ih]

theorem noDigitAfter_initial (P L : Str) (h : P <+: L) (hL : noDigitAfter L = true) :
    noDigitAfter P = true := by
  induction P generalizing L with
  | nil => rfl
  | cons c P ih =>
    obtain ⟨X, rfl⟩ := h
    rw [List.cons_append, noDigitAfter] at hL
    rw [noDigitAfter]
    by_cases hs : isSeparator c = true
    · rw [if_pos hs] at hL ⊢
      exact ih (P ++ X) (List.prefix_append _ _) hL
    · rw [if_neg hs] at hL ⊢
      exact hL

theorem noDigitAfter_of_head (C : Str) (h : ∀ c ∈ C.head?, isBoletoChar c = false) :
    noDigitAfter C = true := by
  cases C with
  | nil => rfl
  | cons c C =>
    have hc : isBoletoChar c = false := h c (by simp)
    rw [isBoletoChar_eq, Bool.or_eq_false_iff] at hc
    rw [noDigitAfter, hc.2]
    simp [hc.1]

/-- What follows, cut into its leading separators and a rest that does not
start inside the class. -/
theorem split_after (C : Str) (h : noDigitAfter C = true) :
    ∃ S C0, C = S ++ C0 ∧ (∀ c ∈ S, isSeparator c = true) ∧
      ∀ c ∈ C0.head?, isBoletoChar c = false := by
  induction C with
  | nil => exact ⟨[], [], rfl, by simp, by simp⟩
  | cons c C ih =>
    rw [noDigitAfter] at h
    by_cases hs : isSeparator c = true
    · rw [if_pos hs] at h
      obtain ⟨S, C0, h1, h2, h3⟩ := ih h
      refine ⟨c :: S, C0, by rw [h1]; rfl, ?_, h3⟩
      intro x hx
      rcases List.mem_cons.mp hx with hx | hx
      · rw [hx]
        exact hs
      · exact h2 x hx
    · rw [if_neg hs] at h
      refine ⟨[], c :: C, rfl, by simp, ?_⟩
      intro x hx
      have hcx : c = x := by simpa using hx
      rw [← hcx, isBoletoChar_eq, Bool.or_eq_false_iff]
      exact ⟨by simpa using h, by simpa using hs⟩

/-- What precedes, cut into a start that does not end inside the class and its
trailing separators. -/
theorem split_before (A : Str) (h : noDigitBefore A = true) :
    ∃ A0 S, A = A0 ++ S ∧ (∀ c ∈ S, isSeparator c = true) ∧
      ∀ c ∈ A0.getLast?, isBoletoChar c = false := by
  obtain ⟨S, C0, h1, h2, h3⟩ := split_after A.reverse h
  refine ⟨C0.reverse, S.reverse, ?_, ?_, ?_⟩
  · have := congrArg List.reverse h1
    simpa using this
  · intro c hc
    exact h2 c (List.mem_reverse.mp hc)
  · intro c hc
    rw [List.getLast?_reverse] at hc
    exact h3 c hc

/-- No match of the first pass starts at a character that is no digit. -/
theorem matchAll_boletoRun_skip (S T : Str) (hS : ∀ c ∈ S, isDigit c = false) :
    matchAll boletoRunAt (S ++ T) = matchAll boletoRunAt T := by
  unfold matchAll
  induction S with
  | nil => rfl
  | cons c S ih =>
    have hc : isDigit c = false := hS c (List.mem_cons_self _ _)
    have hnone : boletoRunAt (c :: (S ++ T)) = none := by
      rw [boletoRunAt]
      simp [hc]
    rw [List.cons_append, matchAllAux_cons_none _ _ _ hnone]
    exact ih (fun x hx => hS x (List.mem_cons_of_mem _ hx))

theorem digitAt_eq_false (l : Str) (i : Nat)
    (h : ∀ d, l[i]? = some d → isDigit d = false) : digitAt l i = false := by
  unfold digitAt
  rw [List.get?_eq_getElem?]
  cases hd : l[i]? with
  | none => rfl
  | some d => exact h d hd

/-- A run of class characters that starts and ends with a digit, has at least
37 characters and is set apart from the other digits of the text is a match of
the first pass. -/
theorem run_found (A M C : Str)
    (hA : noDigitBefore A = true) (hC : noDigitAfter C = true)
    (hhead : ∃ a, M.head? = some a ∧ isDigit a = true)
    (hlast : ∃ b, M.getLast? = some b ∧ isDigit b = true)
    (hall : ∀ c ∈ M, isBoletoChar c = true) (hlen : 37 ≤ M.length) :
    M ∈ matchAll boletoRunAt (A ++ M ++ C) := by
  obtain ⟨A0, S1, rfl, hS1, hA0⟩ := split_before A hA
  obtain ⟨S2, C0, rfl, hS2, hC0⟩ := split_after C hC
  have e : A0 ++ S1 ++ M ++ (S2 ++ C0) = A0 ++ (S1 ++ (M ++ (S2 ++ C0))) := by simp
  rw [e]
  obtain ⟨X, hX⟩ := matchAllAux_append_of_within boletoRunAt isBoletoChar boletoRunAt_within
    A0 (S1 ++ (M ++ (S2 ++ C0))) hA0
  rw [hX, matchAll_boletoRun_skip S1 _ (fun c hc => not_isDigit_of_isSeparator (hS1 c hc))]
  apply List.mem_append_right
  obtain ⟨a, ha, hda⟩ := hhead
  obtain ⟨b, hb, hdb⟩ := hlast
  cases M with
  | nil => simp at ha
  | cons a' M' =>
    have haa : a' = a := by simpa using ha
    rw [← haa] at hda
    have hM'len : 36 ≤ M'.length := by simpa using hlen
    obtain ⟨m1, M2, hM'⟩ : ∃ m1 M2, M' = m1 :: M2 := by
      cases M' with
      | nil => simp at hM'len
      | cons m1 M2 => exact ⟨m1, M2, rfl⟩
    have hb' : M'.getLast? = some b := by
      rw [hM'] at hb ⊢
      rw [List.getLast?_cons_cons] at hb
      exact hb
    have htw : (M' ++ (S2 ++ C0)).takeWhile isBoletoChar = M' ++ S2 := by
      rw [List.takeWhile_append_of_pos (fun c hc => hall c (List.mem_cons_of_mem _ hc)),
        List.takeWhile_append_of_pos (fun c hc => isBoletoChar_of_isSeparator (hS2 c hc)),
        takeWhile_eq_nil_of_head _ _ hC0, List.append_nil]
    have hbefore : digitAt (M' ++ (S2 ++ C0)) (M'.length - 1) = true := by
      unfold digitAt
      rw [List.get?_eq_getElem?, List.getElem?_append_left (by omega)]
      rw [List.getLast?_eq_getElem?] at hb'
      rw [hb']
      exact hdb
    have hafter : ∀ i, M'.length - 1 < i → i ≤ (M' ++ S2).length →
        digitAt (M' ++ (S2 ++ C0)) i = false := by
      intro i h1 h2
      apply digitAt_eq_false
      intro d hd
      rw [List.getElem?_append_right (by omega)] at hd
      by_cases hj : i - M'.length < S2.length
      · rw [List.getElem?_append_left hj] at hd
        exact not_isDigit_of_isSeparator (hS2 d (List.getElem?_mem hd))
      · have hi : i - M'.length - S2.length = 0 := by
          rw [List.length_append] at h2
          omega
        rw [List.getElem?_append_right (by omega), hi, ← List.head?_eq_getElem?] at hd
        have hc : isBoletoChar d = false := hC0 d hd
        rw [isBoletoChar_eq, Bool.or_eq_false_iff] at hc
        exact hc.1
    have hmatch : boletoRunAt (a' :: (M' ++ (S2 ++ C0))) = some (a' :: M').length := by
      rw [boletoRunAt, if_pos hda, htw,
        boletoBacktrack_eq (M' ++ (S2 ++ C0)) (M' ++ S2).length (M'.length - 1) (by omega)
          (by rw [List.length_append]; omega) hbefore hafter]
      simp only [Option.map_some', List.length_cons]
      congr 1
      omega
    rw [List.cons_append, matchAll_cons_of_match _ _ _ _ hmatch]
    rw [← List.cons_append, List.take_left']
    · exact List.mem_cons_self _ _
    · rfl

/-- A digit-dominated piece whose digits have an accepted length and that is
set apart from the other digits of the text gives a key of the map. -/
theorem occurrence_found (A M C D : Str)
    (hA : noDigitBefore A = true) (hC : noDigitAfter C = true)
    (hhead : ∃ a, M.head? = some a ∧ isDigit a = true)
    (hlast : ∃ b, M.getLast? = some b ∧ isDigit b = true)
    (hall : ∀ c ∈ M, isBoletoChar c = true)
    (hdig : M.filter isDigit = D) (hlen : isBoletoLength D.length = true) :
    D ∈ mapKeys (boletoMap (normalizeText (A ++ M ++ C))) := by
  obtain ⟨a, ha, hda⟩ := hhead
  obtain ⟨b, hb, hdb⟩ := hlast
  have hMne : M ≠ [] := by
    intro h0
    rw [h0] at ha
    simp at ha
  have hlen' := (isBoletoLength_iff _).mp hlen
  have hMlen : D.length ≤ M.length := by
    rw [← hdig]
    exact List.length_filter_le _ _
  rw [normalizeText_frame A M C hMne
    (fun c hc => by
      rw [ha] at hc
      have : a = c := by simpa using hc
      exact this ▸ not_isWhiteSpace_of_isDigit hda)
    (fun c hc => by
      rw [hb] at hc
      have : b = c := by simpa using hc
      exact this ▸ not_isWhiteSpace_of_isDigit hdb)]
  have hA' : noDigitBefore ((A.map nbspToSpace).dropWhile isWhiteSpace) = true := by
    unfold noDigitBefore at hA ⊢
    apply noDigitAfter_initial _ (A.reverse.map nbspToSpace)
    · rw [List.map_reverse]
      exact List.reverse_prefix.mpr (List.dropWhile_suffix _)
    · rw [noDigitAfter_map]
      exact hA
  have hC' : noDigitAfter ((C.map nbspToSpace).rdropWhile isWhiteSpace) = true := by
    apply noDigitAfter_initial _ (C.map nbspToSpace) (List.rdropWhile_prefix _ _)
    rw [noDigitAfter_map]
    exact hC
  have hmem := run_found ((A.map nbspToSpace).dropWhile isWhiteSpace) (M.map nbspToSpace)
    ((C.map nbspToSpace).rdropWhile isWhiteSpace) hA' hC'
    ⟨nbspToSpace a, by rw [List.head?_map, ha]; rfl, by rw [isDigit_nbspToSpace]; exact hda⟩
    ⟨nbspToSpace b, by rw [List.getLast?_map, hb]; rfl, by rw [isDigit_nbspToSpace]; exact hdb⟩
    (fun c hc => by
      obtain ⟨x, hx, rfl⟩ := List.mem_map.mp hc
      rw [isBoletoChar_nbspToSpace]
      exact hall x hx)
    (by rw [List.length_map]; omega)
  have hod : onlyDigits (M.map nbspToSpace) = D := by
    rw [onlyDigits_eq_filter, List.filter_map]
    have e : (isDigit ∘ nbspToSpace) = isDigit := funext isDigit_nbspToSpace
    rw [e, hdig]
    conv_rhs => rw [← List.map_id D]
    apply List.map_congr_left
    intro c hc
    have hc' : isDigit c = true := by
      rw [← hdig] at hc
      exact (List.mem_filter.mp hc).2
    exact nbspToSpace_of_not_isWhiteSpace (not_isWhiteSpace_of_isDigit hc')
  have := boletoMap_of_run _ _ hmem (by rw [hod]; exact hlen)
  rw [hod] at this
  exact this

theorem occurrence_withSeparators (A C D : Str) (seps : List Str)
    (hA : noDigitBefore A = true) (hC : noDigitAfter C = true)
    (hD : ∀ c ∈ D, isDigit c = true) (hlen : isBoletoLength D.length = true)
    (hs : ∀ s ∈ seps, ∀ c ∈ s, isSeparator c = true) :
    D ∈ mapKeys (boletoMap (normalizeText (A ++ withSeparators D seps ++ C))) := by
  obtain ⟨h1, h2, h3, h4⟩ := withSeparators_spec D seps hD hs
  have hlen' := (isBoletoLength_iff _).mp hlen
  obtain ⟨d, D', rfl⟩ : ∃ d D', D = d :: D' := by
    cases D with
    | nil => simp at hlen'
    | cons d D' => exact ⟨d, D', rfl⟩
  apply occurrence_found A _ C (d :: D') hA hC _ _ h3 h4 hlen
  · exact ⟨d, by rw [h1]; rfl, hD d (List.mem_cons_self _ _)⟩
  · refine ⟨(d :: D').getLast (by simp), ?_, hD _ (List.getLast_mem _)⟩
    rw [h2, List.getLast?_eq_getLast]

/-! ## Bare digit strings inside a run of digits -/

theorem matchAllAux_skip (matchAt : Str → Option Nat) (P S : Str) :
    matchAllAux matchAt P.length (P ++ S) = matchAllAux matchAt 0 S := by
  induction P with
  | nil => rfl
  | cons c P ih =>
    rw [List.length_cons, List.cons_append, matchAllAux]
    exact ih

/-- The scan of bare digits cuts a run of digits into blocks of 48. -/
theorem matchAll_direct_blocks (n : Nat) (E T : Str) (hlen : E.length = 48 * n)
    (hE : ∀ c ∈ E, isDigit c = true) :
    ∃ X, matchAll directDigitsAt (E ++ T) = X ++ matchAll directDigitsAt T := by
  induction n generalizing E with
  | zero =>
    have : E = [] := List.eq_nil_of_length_eq_zero (by simpa using hlen)
    subst this
    exact ⟨[], rfl⟩
  | succ n ih =>
    have hsplit : E = E.take 48 ++ E.drop 48 := (List.take_append_drop 48 E).symm
    have h1 : (E.take 48).length = 48 := by
      rw [List.length_take]
      omega
    have h2 : (E.drop 48).length = 48 * n := by
      rw [List.length_drop]
      omega
    obtain ⟨X, hX⟩ := ih (E.drop 48) h2 (fun c hc => hE c (List.mem_of_mem_drop hc))
    obtain ⟨e, E1, hE1⟩ : ∃ e E1, E.take 48 = e :: E1 := by
      cases h : E.take 48 with
      | nil =>
        rw [h] at h1
        simp at h1
      | cons e E1 => exact ⟨e, E1, rfl⟩
    have hE1len : E1.length = 47 := by
      rw [hE1] at h1
      simpa using h1
    have hmatch : directDigitsAt (e :: (E1 ++ (E.drop 48 ++ T))) = some 48 := by
      have ht : (e :: (E1 ++ (E.drop 48 ++ T))).take 48 = e :: E1 := by
        rw [← List.cons_append]
        exact List.take_left' (by simp [hE1len])
      have htw : (e :: E1).takeWhile isDigit = e :: E1 := by
        rw [List.takeWhile_eq_self_iff]
        intro c hc
        rw [← hE1] at hc
        exact hE c (List.mem_of_mem_take hc)
      unfold directDigitsAt
      simp only [ht, htw]
      rw [if_pos (by simp [hE1len])]
      simp [hE1len]
    refine ⟨(e :: E1) :: X, ?_⟩
    have e0 : E ++ T = e :: (E1 ++ (E.drop 48 ++ T)) := by
      conv_lhs => rw [hsplit, hE1]
      simp
    rw [e0, matchAll_cons_of_match _ _ _ _ hmatch]
    have e1 : (48 : Nat) - 1 = E1.length := by omega
    rw [e1, matchAllAux_skip]
    have e2 : (e :: (E1 ++ (E.drop 48 ++ T))).take 48 = e :: E1 := by
      rw [← List.cons_append]
      exact List.take_left' (by simp [hE1len])
    rw [e2]
    have e3 : matchAllAux directDigitsAt 0 (E.drop 48 ++ T)
        = matchAll directDigitsAt (E.drop 48 ++ T) := rfl
    rw [e3, hX]
    rfl

/-- A string of 46 to 48 digits that follows whole blocks of 48 digits, and
that has 48 digits or is followed by no digit, is a match of the second pass. -/
theorem direct_found_blocks (A E R C : Str)
    (hA : ∀ c ∈ A.getLast?, isDigit c = false)
    (hE : ∀ c ∈ E, isDigit c = true) (hE48 : E.length % 48 = 0)
    (hR : ∀ c ∈ R, isDigit c = true) (hlen : isBoletoLength R.length = true)
    (hC : R.length = 48 ∨ ∀ c ∈ C.head?, isDigit c = false) :
    R ∈ matchAll directDigitsAt (A ++ (E ++ R) ++ C) := by
  have e : A ++ (E ++ R) ++ C = A ++ (E ++ (R ++ C)) := by simp
  rw [e]
  obtain ⟨X, hX⟩ := matchAllAux_append_of_within directDigitsAt isDigit directDigitsAt_within
    A (E ++ (R ++ C)) hA
  obtain ⟨Y, hY⟩ := matchAll_direct_blocks (E.length / 48) E (R ++ C)
    (by omega) hE
  rw [hX, hY]
  apply List.mem_append_right
  apply List.mem_append_right
  have hlen' := (isBoletoLength_iff _).mp hlen
  have htw : ((R ++ C).take 48).takeWhile isDigit = R := by
    rcases hC with h48 | hC
    · rw [List.take_left' h48]
      exact List.takeWhile_eq_self_iff.mpr hR
    · have htake : (R ++ C).take 48 = R ++ C.take (48 - R.length) := by
        rw [List.take_append_eq_append_take, List.take_of_length_le (by omega)]
      rw [htake, List.takeWhile_append_of_pos hR,
        takeWhile_eq_nil_of_head _ _ (fun c hc => hC c (head?_take_mem _ _ _ hc)),
        List.append_nil]
  have hmatch : directDigitsAt (R ++ C) = some R.length := by
    unfold directDigitsAt
    simp only [htw]
    rw [if_pos (by omega)]
  cases R with
  | nil => simp at hlen'
  | cons r R' =>
    rw [List.cons_append] at hmatch ⊢
    rw [matchAll_cons_of_match _ _ _ _ hmatch, ← List.cons_append, List.take_left']
    · exact List.mem_cons_self _ _
    · rfl

/-- A bare digit string that stands where the scan of bare digits cuts a block
gives a key of the map. -/
theorem bare_found (A D C : Str) (hD : ∀ c ∈ D, isDigit c = true)
    (hlen : isBoletoLength D.length = true) (hb : bareBlock A D C = true) :
    D ∈ mapKeys (boletoMap (normalizeText (A ++ D ++ C))) := by
  unfold bareBlock at hb
  rw [Bool.and_eq_true] at hb
  obtain ⟨hb1, hb2⟩ := hb
  have hlen' := (isBoletoLength_iff _).mp hlen
  have hDne : D ≠ [] := by
    intro h0
    rw [h0] at hlen'
    simp at hlen'
  have hrev : A.reverse = A.reverse.takeWhile isDigit ++ A.reverse.dropWhile isDigit :=
    (List.takeWhile_append_dropWhile isDigit A.reverse).symm
  have hA : A = (A.reverse.dropWhile isDigit).reverse ++ (A.reverse.takeWhile isDigit).reverse := by
    have := congrArg List.reverse hrev
    rw [List.reverse_reverse, List.reverse_append] at this
    exact this
  have hE : ∀ c ∈ (A.reverse.takeWhile isDigit).reverse, isDigit c = true :=
    fun c hc => List.mem_takeWhile_imp (List.mem_reverse.mp hc)
  have hE48 : ((A.reverse.takeWhile isDigit).reverse).length % 48 = 0 := by
    rw [List.length_reverse]
    simpa using hb1
  have hA0 : ∀ c ∈ ((A.reverse.dropWhile isDigit).reverse).getLast?, isDigit c = false := by
    intro c hc
    rw [List.getLast?_reverse] at hc
    have := List.head?_dropWhile_not isDigit A.reverse
    rw [hc] at this
    simpa using this
  have hM : ∀ c ∈ (A.reverse.takeWhile isDigit).reverse ++ D, isDigit c = true := by
    intro c hc
    rcases List.mem_append.mp hc with hc | hc
    · exact hE c hc
    · exact hD c hc
  have hfix : ((A.reverse.takeWhile isDigit).reverse ++ D).map nbspToSpace
      = (A.reverse.takeWhile isDigit).reverse ++ D := by
    conv_rhs => rw [← List.map_id ((A.reverse.takeWhile isDigit).reverse ++ D)]
    apply List.map_congr_left
    intro c hc
    exact nbspToSpace_of_not_isWhiteSpace (not_isWhiteSpace_of_isDigit (hM c hc))
  have e : A ++ D ++ C
      = (A.reverse.dropWhile isDigit).reverse ++ ((A.reverse.takeWhile isDigit).reverse ++ D)
        ++ C := by
    conv_lhs => rw [hA]
    simp
  rw [e, normalizeText_frame _ _ C (by simp [hDne])
    (fun c hc => not_isWhiteSpace_of_isDigit (hM c (List.mem_of_mem_head? hc)))
    (fun c hc => not_isWhiteSpace_of_isDigit (hM c (List.mem_of_mem_getLast? hc))), hfix]
  apply boletoMap_of_direct
  apply direct_found_blocks _ _ D _
    (getLast?_normalized_before isDigit isDigit_nbspToSpace _ hA0) hE hE48 hD hlen
  rw [Bool.or_eq_true] at hb2
  rcases hb2 with h48 | hC
  · exact Or.inl (by simpa using h48)
  · right
    apply head?_normalized_after isDigit isDigit_nbspToSpace C
    intro c hc
    have hc' : C.head? = some c := hc
    rw [hc'] at hC
    simpa using hC

/-! ## The boleto detector: claims -/

set_option maxRecDepth 1000000 in
/-- C2: a string `D` of 46, 47 or 48 digits written with any dots, hyphens and
white space between its consecutive digits is found: `findBoletoCandidates`
returns a BOLETO candidate whose clean value is `D`.  For the line of the
built-in example the result is exactly that one candidate, of 47 digits. -/
theorem boleto_found_through_separators (D : Str) (seps : List Str)
    (hD : ∀ c ∈ D, isDigit c = true)
    (hlen : D.length = 46 ∨ D.length = 47 ∨ D.length = 48)
    (hs : ∀ s ∈ seps, ∀ c ∈ s, isSeparator c = true) :
    (∃ c ∈ findBoletoCandidates (withSeparators D seps),
      c.type = CodeType.BOLETO ∧ c.clean = D) ∧
    findBoletoCandidates exampleBoleto
      = [{ type := CodeType.BOLETO, raw := exampleBoleto, clean := exampleDigits }] ∧
    exampleDigits.length = 47 := by
  refine ⟨?_, by decide, by decide⟩
  rw [findBoletoCandidates_eq]
  apply candidate_of_key
  have h := occurrence_withSeparators [] [] D seps rfl rfl hD
    ((isBoletoLength_iff _).mpr hlen) hs
  simpa using h

set_option maxRecDepth 1000000 in
/-- Witness of C2: the line of the built-in example is its 47 digits written
with the example's dots and spaces, and its candidate is found. -/
theorem boleto_found_through_separators_witness :
    withSeparators exampleDigits exampleSeparators = exampleBoleto ∧
    ∃ c ∈ findBoletoCandidates (withSeparators exampleDigits exampleSeparators),
      c.type = CodeType.BOLETO ∧ c.clean = exampleDigits :=
  ⟨by decide,
    (boleto_found_through_separators exampleDigits exampleSeparators (by decide)
      (by decide) (by decide)).1⟩

/-- C5: a maximal run of 46, 47 or 48 digits, whatever stands around it, is
the clean value of a BOLETO candidate of `findBoletoCandidates`. -/
theorem maximal_digit_run_accepted (A R C : Str)
    (hA : ∀ c ∈ A.getLast?, isDigit c = false)
    (hC : ∀ c ∈ C.head?, isDigit c = false)
    (hR : ∀ c ∈ R, isDigit c = true)
    (hlen : R.length = 46 ∨ R.length = 47 ∨ R.length = 48) :
    ∃ c ∈ findBoletoCandidates (A ++ R ++ C), c.type = CodeType.BOLETO ∧ c.clean = R := by
  have hlen' : isBoletoLength R.length = true := (isBoletoLength_iff _).mpr hlen
  obtain ⟨r, R', hR'⟩ : ∃ r R', R = r :: R' := by
    cases R with
    | nil => simp at hlen
    | cons r R' => exact ⟨r, R', rfl⟩
  have hfix : R.map nbspToSpace = R := by
    conv_rhs => rw [← List.map_id R]
    apply List.map_congr_left
    intro c hc
    exact nbspToSpace_of_not_isWhiteSpace (not_isWhiteSpace_of_isDigit (hR c hc))
  rw [findBoletoCandidates_eq]
  apply candidate_of_key
  rw [normalizeText_frame A R C (by rw [hR']; simp)
    (fun c hc => not_isWhiteSpace_of_isDigit (hR c (List.mem_of_mem_head? hc)))
    (fun c hc => not_isWhiteSpace_of_isDigit (hR c (List.mem_of_mem_getLast? hc))), hfix]
  apply boletoMap_of_direct
  exact direct_found _ R _
    (getLast?_normalized_before isDigit isDigit_nbspToSpace A hA)
    (head?_normalized_after isDigit isDigit_nbspToSpace C hC) hR hlen'

set_option maxRecDepth 1000000 in
/-- Witness of C5: the 47 digits of the example between a label and a word. -/
theorem maximal_digit_run_accepted_witness :
    ∃ c ∈ findBoletoCandidates ("cod: ".toList ++ exampleDigits ++ " ok".toList),
      c.type = CodeType.BOLETO ∧ c.clean = exampleDigits :=
  maximal_digit_run_accepted "cod: ".toList exampleDigits " ok".toList (by decide) (by decide)
    (by decide) (by decide)

/-- No two candidates of `findBoletoCandidates` share a clean value. -/
theorem findBoletoCandidates_nodup (text : Str) :
    ((findBoletoCandidates text).map Candidate.clean).Nodup := by
  rw [findBoletoCandidates_eq, boletoMap_clean]
  exact boletoMap_nodup _

theorem withClean_length (cs : List Candidate) (D : Str)
    (hnd : (cs.map Candidate.clean).Nodup) :
    (withClean cs D).length ≤ 1 ∧
    (D ∈ cs.map Candidate.clean → (withClean cs D).length = 1) := by
  induction cs with
  | nil => simp [withClean]
  | cons c cs ih =>
    rw [List.map_cons, List.nodup_cons] at hnd
    obtain ⟨hnot, hnd'⟩ := hnd
    obtain ⟨ih1, ih2⟩ := ih hnd'
    by_cases hc : c.clean = D
    · have hnil : withClean cs D = [] := by
        unfold withClean
        rw [List.filter_eq_nil_iff]
        intro x hx hxD
        apply hnot
        rw [hc]
        exact List.mem_map.mpr ⟨x, hx, by simpa using hxD⟩
      have e : withClean (c :: cs) D = c :: withClean cs D := by
        unfold withClean
        rw [List.filter_cons_of_pos (by simpa using hc)]
      rw [e, hnil]
      simp
    · have e : withClean (c :: cs) D = withClean cs D := by
        unfold withClean
        rw [List.filter_cons_of_neg (by simpa using hc)]
      rw [e]
      refine ⟨ih1, fun hmem => ih2 ?_⟩
      rcases List.mem_cons.mp hmem with h | h
      · exact absurd h.symm hc
      · exact h

/-- C3, as the code has it: at most one candidate of a text has the clean
value `D`; and when `D` (46, 47 or 48 digits) stands twice in the text, bare or
with separators between its digits, exactly one candidate has the clean value
`D` as soon as one of the two occurrences is set apart from the other digits of
the text (going outwards from it over dots, hyphens and white space one reaches,
on each side, the text boundary or a character that is no digit), or is bare and
stands where the scan of bare digits cuts a block (the digits just before it
number a multiple of 48, none in particular, and it has 48 digits or no digit
follows it). -/
theorem duplicate_yields_one (text D A B C : Str) (seps1 seps2 : List Str)
    (hD : ∀ c ∈ D, isDigit c = true)
    (hlen : D.length = 46 ∨ D.length = 47 ∨ D.length = 48)
    (hs1 : ∀ s ∈ seps1, ∀ c ∈ s, isSeparator c = true)
    (hs2 : ∀ s ∈ seps2, ∀ c ∈ s, isSeparator c = true)
    (hfound :
      (noDigitBefore A = true ∧ noDigitAfter (B ++ withSeparators D seps2 ++ C) = true) ∨
      (noDigitBefore (A ++ withSeparators D seps1 ++ B) = true ∧ noDigitAfter C = true) ∨
      (withSeparators D seps1 = D ∧
        bareBlock A D (B ++ withSeparators D seps2 ++ C) = true) ∨
      (withSeparators D seps2 = D ∧
        bareBlock (A ++ withSeparators D seps1 ++ B) D C = true)) :
    (withClean (findBoletoCandidates text) D).length ≤ 1 ∧
    (withClean (findBoletoCandidates
        (A ++ withSeparators D seps1 ++ B ++ withSeparators D seps2 ++ C)) D).length
      = 1 := by
  refine ⟨(withClean_length _ D (findBoletoCandidates_nodup text)).1, ?_⟩
  apply (withClean_length _ D (findBoletoCandidates_nodup _)).2
  rw [findBoletoCandidates_eq, boletoMap_clean]
  have hl := (isBoletoLength_iff _).mpr hlen
  rcases hfound with ⟨hA, hC⟩ | ⟨hA, hC⟩ | ⟨hbare, hb⟩ | ⟨hbare, hb⟩
  · have h := occurrence_withSeparators A (B ++ withSeparators D seps2 ++ C) D seps1 hA hC
      hD hl hs1
    simpa [List.append_assoc] using h
  · exact occurrence_withSeparators (A ++ withSeparators D seps1 ++ B) C D seps2 hA hC
      hD hl hs2
  · have h := bare_found A D (B ++ withSeparators D seps2 ++ C) hD hl hb
    rw [hbare]
    simpa [List.append_assoc] using h
  · have h := bare_found (A ++ withSeparators D seps1 ++ B) D C hD hl hb
    rw [hbare]
    exact h

set_option maxRecDepth 1000000 in
/-- Witness of C3 as amended: the example line on two lines of a message, each
after some words; and its 47 digits bare on two consecutive lines. -/
theorem duplicate_yields_one_witness :
    (withClean (findBoletoCandidates
        ("Linha: ".toList ++ withSeparators exampleDigits exampleSeparators
          ++ "\nou de novo: ".toList ++ withSeparators exampleDigits exampleSeparators
          ++ [])) exampleDigits).length = 1 ∧
    (withClean (findBoletoCandidates
        ([] ++ withSeparators exampleDigits [] ++ ['\n'] ++ withSeparators exampleDigits []
          ++ [])) exampleDigits).length = 1 :=
  ⟨(duplicate_yields_one [] exampleDigits "Linha: ".toList "\nou de novo: ".toList []
      exampleSeparators exampleSeparators (by decide) (by decide) (by decide) (by decide)
      (Or.inl (by decide))).2,
   (duplicate_yields_one [] exampleDigits [] ['\n'] [] [] [] (by decide) (by decide)
      (by decide) (by decide) (Or.inr (Or.inr (Or.inl (by decide))))).2⟩

set_option maxRecDepth 1000000 in
/-- C3 fails as stated: the example line, written with its separators on two
consecutive lines of a text, yields no candidate at all. -/
theorem duplicate_on_two_lines_lost :
    (∀ c ∈ exampleDigits, isDigit c = true) ∧ exampleDigits.length = 47 ∧
    (∀ s ∈ exampleSeparators, ∀ c ∈ s, isSeparator c = true) ∧
    findBoletoCandidates
      (withSeparators exampleDigits exampleSeparators ++ ['\n']
        ++ withSeparators exampleDigits exampleSeparators) = [] ∧
    (withClean (findBoletoCandidates
      (withSeparators exampleDigits exampleSeparators ++ ['\n']
        ++ withSeparators exampleDigits exampleSeparators)) exampleDigits).length ≠ 1 := by
  decide

/-! ## The map of `findPixCopiaECola` -/

theorem findPixCopiaECola_eq (text : Str) :
    findPixCopiaECola text = mapValues (pixMap (pixText text)) := rfl

/-- The text searched for PIX payloads is the input without its white space. -/
theorem pixText_eq_filter (text : Str) :
    pixText text = text.filter (fun c => !isWhiteSpace c) := by
  unfold pixText replaceAll whiteSpaceAt
  rw [replaceAllAux_run, List.drop_zero, normalizeText_eq, filter_not_trim, List.filter_map]
  have e : ((fun c => !isWhiteSpace c) ∘ nbspToSpace) = (fun c => !isWhiteSpace c) := by
    funext c
    simp [isWhiteSpace_nbspToSpace]
  rw [e]
  conv_rhs => rw [← List.map_id (List.filter _ text)]
  apply List.map_congr_left
  intro c hc
  have := (List.mem_filter.mp hc).2
  exact nbspToSpace_of_not_isWhiteSpace (by simpa using this)

theorem isAlnum_pixMarker : ∀ c ∈ pixMarker, isAlnum c = true := by decide

/-- A match of the PIX pattern in `t`: trimming leaves it as it is. -/
theorem matchAll_pix_spec (t m : Str) (hm : m ∈ matchAll pixAt t) :
    trim m = m ∧ pixMarker <+: m ∧ (∀ c ∈ m, isAlnum c = true) ∧ m <:+: t := by
  obtain ⟨pre, s, n, h1, _, h3, h4⟩ := matchAllAux_mem _ _ _ _ hm
  obtain ⟨_, body, hb1, _, hb3⟩ := pixAt_spec s n h3
  have hal : ∀ c ∈ m, isAlnum c = true := by
    intro c hc
    rw [h4, hb1] at hc
    rcases List.mem_append.mp hc with hc | hc
    · exact isAlnum_pixMarker c hc
    · exact hb3 c hc
  refine ⟨trim_eq_self_of_all_false m (fun c hc => not_isWhiteSpace_of_isAlnum (hal c hc)),
    ?_, hal, ?_⟩
  · rw [h4, hb1]
    exact List.prefix_append _ _
  · rw [h4, h1]
    exact ((List.take_prefix n s).isInfix).trans (List.suffix_append pre s).isInfix

theorem pixStep_entries (t : Str) (u : CandMap) (m : Str) (hm : m ∈ matchAll pixAt t)
    (h : ∀ e ∈ u, PixEntry t e) : ∀ e ∈ pixStep u m, PixEntry t e := by
  intro e he
  obtain ⟨h1, h2, h3, h4⟩ := matchAll_pix_spec t m hm
  unfold pixStep at he
  simp only [h1] at he
  by_cases hl : 30 ≤ m.length
  · rw [if_pos hl] at he
    rcases of_mem_mapSet _ _ _ _ he with he | he
    · subst he
      exact ⟨rfl, rfl, rfl, h2, h3, hl, h4⟩
    · exact h e he
  · rw [if_neg hl] at he
    exact h e he

theorem pixStep_nodup (u : CandMap) (m : Str) (h : (mapKeys u).Nodup) :
    (mapKeys (pixStep u m)).Nodup := by
  unfold pixStep
  simp only
  split
  · exact nodup_mapKeys_mapSet _ _ _ h
  · exact h

theorem pixMap_entries (t : Str) : ∀ e ∈ pixMap t, PixEntry t e := by
  unfold pixMap
  apply foldl_invariant (P := fun u => ∀ e ∈ u, PixEntry t e)
  · intro u m hm hu
    exact pixStep_entries t u m hm hu
  · intro e he
    simp at he

theorem pixMap_nodup (t : Str) : (mapKeys (pixMap t)).Nodup := by
  unfold pixMap
  apply foldl_invariant (P := fun u => (mapKeys u).Nodup)
  · intro u m _ hu
    exact pixStep_nodup u m hu
  · simp [mapKeys]

theorem pixMap_clean (t : Str) :
    (mapValues (pixMap t)).map Candidate.clean = mapKeys (pixMap t) := by
  unfold mapValues mapKeys
  rw [List.map_map]
  apply List.map_congr_left
  intro e he
  exact (pixMap_entries t e he).2.1

theorem findPixCopiaECola_nodup (text : Str) :
    ((findPixCopiaECola text).map Candidate.clean).Nodup := by
  rw [findPixCopiaECola_eq, pixMap_clean]
  exact pixMap_nodup _

/-- Every PIX candidate comes from an entry of the map. -/
theorem findPixCopiaECola_mem (text : Str) (c : Candidate) (hc : c ∈ findPixCopiaECola text) :
    c.type = CodeType.PIX ∧ c.clean = c.raw ∧ pixMarker <+: c.clean ∧
    (∀ ch ∈ c.clean, isAlnum ch = true) ∧ 30 ≤ c.clean.length ∧
    c.clean <:+: text.filter (fun ch => !isWhiteSpace ch) := by
  rw [findPixCopiaECola_eq] at hc
  obtain ⟨e, he, rfl⟩ := List.mem_map.mp hc
  obtain ⟨h1, h2, h3, h4, h5, h6, h7⟩ := pixMap_entries _ e he
  rw [pixText_eq_filter] at h7
  rw [h2]
  exact ⟨h1, by rw [h3, h2], h4, h5, h6, h7⟩

/-- Every boleto candidate comes from an entry of the map. -/
theorem findBoletoCandidates_mem (text : Str) (c : Candidate)
    (hc : c ∈ findBoletoCandidates text) :
    c.type = CodeType.BOLETO ∧ (∀ ch ∈ c.clean, isDigit ch = true) ∧
    (c.clean.length = 46 ∨ c.clean.length = 47 ∨ c.clean.length = 48) ∧
    c.clean = onlyDigits c.raw := by
  rw [findBoletoCandidates_eq] at hc
  obtain ⟨e, he, rfl⟩ := List.mem_map.mp hc
  obtain ⟨h1, h2, h3, h4, h5⟩ := boletoMap_entries _ e he
  rw [h2]
  exact ⟨h1, h3, (isBoletoLength_iff _).mp h4, by rw [← h2]; exact h5⟩

/-! ## The page -/

theorem showSelected_found (p : Page) : (showSelected p).found = p.found := by
  unfold showSelected
  split
  · rfl
  · simp only
    split <;> rfl

theorem renderFound_found (p : Page) : (renderFound p).found = p.found := by
  unfold renderFound
  split
  · rfl
  · simp only
    rw [showSelected_found]
    split <;> rfl

theorem extract_found (p : Page) (text : Str) :
    (extract p text).found = findBoletoCandidates text ++ findPixCopiaECola text := by
  unfold extract
  simp only
  rw [renderFound_found]

/-! ## Well-formed candidates -/

/-- C10: every candidate of `findBoletoCandidates` has type BOLETO, a clean
value of 46, 47 or 48 digits and `clean = onlyDigits raw`; every candidate of
`findPixCopiaECola` has type PIX, `clean = raw`, a clean value that starts with
`000201`, holds letters and digits only and has at least 30 characters; so no
candidate of `extract` has an empty clean value, and no detector returns two
candidates with one clean value. -/
theorem candidates_well_formed (text : Str) :
    (∀ c ∈ findBoletoCandidates text,
      c.type = CodeType.BOLETO ∧ (∀ ch ∈ c.clean, isDigit ch = true) ∧
      (c.clean.length = 46 ∨ c.clean.length = 47 ∨ c.clean.length = 48) ∧
      c.clean = onlyDigits c.raw) ∧
    (∀ c ∈ findPixCopiaECola text,
      c.type = CodeType.PIX ∧ c.clean = c.raw ∧ pixMarker <+: c.clean ∧
      (∀ ch ∈ c.clean, isAlnum ch = true) ∧ 30 ≤ c.clean.length) ∧
    (∀ p : Page, ∀ c ∈ (extract p text).found, c.clean ≠ []) ∧
    ((findBoletoCandidates text).map Candidate.clean).Nodup ∧
    ((findPixCopiaECola text).map Candidate.clean).Nodup := by
  refine ⟨findBoletoCandidates_mem text, ?_, ?_, findBoletoCandidates_nodup text,
    findPixCopiaECola_nodup text⟩
  · intro c hc
    obtain ⟨h1, h2, h3, h4, h5, _⟩ := findPixCopiaECola_mem text c hc
    exact ⟨h1, h2, h3, h4, h5⟩
  · intro p c hc h0
    rw [extract_found] at hc
    rcases List.mem_append.mp hc with hc | hc
    · obtain ⟨_, _, h3, _⟩ := findBoletoCandidates_mem text c hc
      rw [h0] at h3
      simp at h3
    · obtain ⟨_, _, _, _, h5, _⟩ := findPixCopiaECola_mem text c hc
      rw [h0] at h5
      simp at h5

/-! ## The PIX detector: claims -/

/-- Every PIX candidate is a contiguous piece of the text without its white
space, so its clean value holds no white space. -/
theorem pix_clean_without_white_space (text : Str) (c : Candidate)
    (hc : c ∈ findPixCopiaECola text) :
    c.type = CodeType.PIX ∧
    c.clean <:+: text.filter (fun ch => !isWhiteSpace ch) ∧
    (∀ ch ∈ c.clean, isWhiteSpace ch = false) := by
  obtain ⟨h1, _, _, h4, _, h6⟩ := findPixCopiaECola_mem text c hc
  exact ⟨h1, h6, fun ch hch => not_isWhiteSpace_of_isAlnum (h4 ch hch)⟩

set_option maxRecDepth 1000000 in
/-- C1 at the payload of the built-in example: for the text that is exactly the
payload, and for the example message that contains it, `findPixCopiaECola`
returns no candidate.  With the white space deleted, only the 10 characters
`26580014BR` stand between the marker and the first dot, where the pattern
asks for 20 letters or digits. -/
theorem example_pix_not_found :
    examplePix <:+: exampleMessage ∧ findPixCopiaECola examplePix = [] ∧
    findPixCopiaECola exampleMessage = [] ∧
    pixAt (examplePix.filter (fun c => !isWhiteSpace c)) = none ∧
    ((examplePix.filter (fun c => !isWhiteSpace c)).drop 6).takeWhile isAlnum
      = "26580014BR".toList :=
  ⟨⟨_, _, rfl⟩, by decide, by decide, by decide, by decide⟩

theorem matchAll_pix_whole (X : Str) (hX : ∀ c ∈ X, isAlnum c = true) (h20 : 20 ≤ X.length) :
    matchAll pixAt (pixMarker ++ X) = [pixMarker ++ X] := by
  have hdrop : (pixMarker ++ X).drop 6 = X := by
    rw [List.drop_append_of_le_length (by simp [pixMarker])]
    simp [pixMarker]
  have htw : X.takeWhile isAlnum = X := List.takeWhile_eq_self_iff.mpr hX
  have hmatch : pixAt (pixMarker ++ X) = some (pixMarker ++ X).length := by
    unfold pixAt
    rw [if_pos (List.isPrefixOf_iff_prefix.mpr (List.prefix_append _ _))]
    simp only [hdrop, htw]
    rw [if_pos h20]
    simp only [pixMarker, List.length_append, List.length_cons, List.length_nil]
  have hcons : pixMarker ++ X = '0' :: (['0', '0', '2', '0', '1'] ++ X) := rfl
  rw [hcons] at hmatch ⊢
  rw [matchAll_cons_of_match _ _ _ _ hmatch, List.take_length,
    matchAllAux_of_length_le _ _ _ (by simp)]

/-- C7: `000201` followed by 23 letters and digits (29 characters) gives no
candidate; followed by 24 letters and digits (30 characters) it gives exactly
one candidate, of type PIX, whose clean value is the whole string. -/
theorem pix_minimum_length (X Y : Str)
    (hX : ∀ c ∈ X, isAlnum c = true) (hXlen : X.length = 23)
    (hY : ∀ c ∈ Y, isAlnum c = true) (hYlen : Y.length = 24) :
    findPixCopiaECola (pixMarker ++ X) = [] ∧
    findPixCopiaECola (pixMarker ++ Y)
      = [{ type := CodeType.PIX, raw := pixMarker ++ Y, clean := pixMarker ++ Y }] := by
  have key : ∀ Z : Str, (∀ c ∈ Z, isAlnum c = true) → 20 ≤ Z.length →
      findPixCopiaECola (pixMarker ++ Z) = mapValues (pixStep [] (pixMarker ++ Z)) := by
    intro Z hZ h20
    have hal : ∀ c ∈ pixMarker ++ Z, isAlnum c = true := by
      intro c hc
      rcases List.mem_append.mp hc with hc | hc
      · exact isAlnum_pixMarker c hc
      · exact hZ c hc
    have hfil : (pixMarker ++ Z).filter (fun c => !isWhiteSpace c) = pixMarker ++ Z := by
      rw [List.filter_eq_self]
      intro c hc
      simp [not_isWhiteSpace_of_isAlnum (hal c hc)]
    rw [findPixCopiaECola_eq, pixText_eq_filter, hfil]
    unfold pixMap
    rw [matchAll_pix_whole Z hZ h20]
    rfl
  have htrim : ∀ Z : Str, (∀ c ∈ Z, isAlnum c = true) → trim (pixMarker ++ Z) = pixMarker ++ Z := by
    intro Z hZ
    apply trim_eq_self_of_all_false
    intro c hc
    apply not_isWhiteSpace_of_isAlnum
    rcases List.mem_append.mp hc with hc | hc
    · exact isAlnum_pixMarker c hc
    · exact hZ c hc
  constructor
  · rw [key X hX (by omega)]
    unfold pixStep
    simp only [htrim X hX]
    rw [if_neg (by simp [pixMarker, hXlen])]
    rfl
  · rw [key Y hY (by omega)]
    unfold pixStep
    simp only [htrim Y hY]
    rw [if_pos (by simp [pixMarker, hYlen])]
    rfl

set_option maxRecDepth 1000000 in
/-- Witness of C7: the letters `A`..`W` and `A`..`X` after the marker. -/
theorem pix_minimum_length_witness :
    findPixCopiaECola "000201ABCDEFGHIJKLMNOPQRSTUVW".toList = [] ∧
    findPixCopiaECola "000201ABCDEFGHIJKLMNOPQRSTUVWX".toList
      = [{ type := CodeType.PIX, raw := "000201ABCDEFGHIJKLMNOPQRSTUVWX".toList,
           clean := "000201ABCDEFGHIJKLMNOPQRSTUVWX".toList }] :=
  pix_minimum_length "ABCDEFGHIJKLMNOPQRSTUVW".toList "ABCDEFGHIJKLMNOPQRSTUVWX".toList
    (by decide) (by decide) (by decide) (by decide)

/-! ## Texts without any code -/

theorem trim_inside (l : Str) : trim l <:+: l :=
  (List.rdropWhile_prefix _ _).isInfix.trans (List.dropWhile_suffix _).isInfix

theorem infix_map_inv (f : Char → Char) (l m : Str) (h : m <:+: l.map f) :
    ∃ s, s <:+: l ∧ s.map f = m := by
  obtain ⟨X, Y, hXY⟩ := h
  obtain ⟨l1, l2, h1, h2, _⟩ := List.map_eq_append_iff.mp hXY.symm
  obtain ⟨l3, l4, h3, _, h5⟩ := List.map_eq_append_iff.mp h2
  exact ⟨l4, ⟨l3, l2, by rw [h1, h3]⟩, h5⟩

/-- A span of the normalized text comes from a span of the text. -/
theorem span_of_normalized (text m : Str) (hm : m <:+: normalizeText text)
    (hspan : IsBoletoSpan m) : ∃ s, s <:+: text ∧ IsBoletoSpan s := by
  rw [normalizeText_eq] at hm
  obtain ⟨s, hs, rfl⟩ := infix_map_inv nbspToSpace text m (hm.trans (trim_inside _))
  obtain ⟨h1, ⟨a, ha, hda⟩, ⟨b, hb, hdb⟩, h4⟩ := hspan
  refine ⟨s, hs, by simpa using h1, ?_, ?_, ?_⟩
  · rw [List.head?_map] at ha
    obtain ⟨x, hx, rfl⟩ := Option.map_eq_some'.mp ha
    exact ⟨x, hx, by rw [← isDigit_nbspToSpace]; exact hda⟩
  · rw [List.getLast?_map] at hb
    obtain ⟨x, hx, rfl⟩ := Option.map_eq_some'.mp hb
    exact ⟨x, hx, by rw [← isDigit_nbspToSpace]; exact hdb⟩
  · intro c hc
    rw [← isBoletoChar_nbspToSpace]
    exact h4 _ (List.mem_map_of_mem _ hc)

theorem matchAll_inside (matchAt : Str → Option Nat) (t m : Str)
    (hm : m ∈ matchAll matchAt t) : ∃ s n, s <:+ t ∧ matchAt s = some n ∧ m = s.take n ∧
      m <:+: t := by
  obtain ⟨pre, s, n, h1, _, h3, h4⟩ := matchAllAux_mem _ _ _ _ hm
  refine ⟨s, n, ⟨pre, h1.symm⟩, h3, h4, ?_⟩
  rw [h4, h1]
  exact ((List.take_prefix n s).isInfix).trans (List.suffix_append pre s).isInfix

theorem boletoRun_isSpan (t m : Str) (hm : m ∈ matchAll boletoRunAt t) :
    m <:+: t ∧ IsBoletoSpan m := by
  obtain ⟨s, n, _, h2, h3, h4⟩ := matchAll_inside _ _ _ hm
  obtain ⟨h37, hle, hall, hh, hl⟩ := boletoRunAt_spec s n h2
  rw [← h3] at hall hh hl
  refine ⟨h4, ?_, hh, hl, hall⟩
  rw [h3, List.length_take]
  omega

theorem directDigits_isSpan (t m : Str) (hm : m ∈ matchAll directDigitsAt t) :
    m <:+: t ∧ IsBoletoSpan m := by
  obtain ⟨s, n, _, h2, h3, h4⟩ := matchAll_inside _ _ _ hm
  obtain ⟨h46, _, _, hlen, hall⟩ := directDigitsAt_spec s n h2
  rw [← h3] at hall hlen
  have hne : m ≠ [] := by
    intro h0
    rw [h0] at hlen
    simp at hlen
    omega
  refine ⟨h4, by omega, ?_, ?_, fun c hc => isBoletoChar_of_isDigit (hall c hc)⟩
  · exact ⟨m.head hne, List.head?_eq_head hne, hall _ (List.head_mem hne)⟩
  · exact ⟨m.getLast hne, List.getLast?_eq_getLast _ hne, hall _ (List.getLast_mem hne)⟩

/-- C6, as the code has it: a text that has no span of 36 or more characters
made of digits, dots, hyphens and white space that starts and ends with a
digit, and that after deletion of its white space has no occurrence of
`000201`, gives an empty list `found` and `selectedIndex = -1`. -/
theorem nothing_found (p : Page) (text : Str)
    (hspan : ∀ s, s <:+: text → ¬ IsBoletoSpan s)
    (hpix : ¬ pixMarker <:+: text.filter (fun c => !isWhiteSpace c)) :
    (extract p text).found = [] ∧ (extract p text).selectedIndex = -1 := by
  have hb : findBoletoCandidates text = [] := by
    have h1 : matchAll boletoRunAt (normalizeText text) = [] := by
      rw [List.eq_nil_iff_forall_not_mem]
      intro m hm
      obtain ⟨hinf, hs⟩ := boletoRun_isSpan _ _ hm
      obtain ⟨s, hs1, hs2⟩ := span_of_normalized text m hinf hs
      exact hspan s hs1 hs2
    have h2 : matchAll directDigitsAt (normalizeText text) = [] := by
      rw [List.eq_nil_iff_forall_not_mem]
      intro m hm
      obtain ⟨hinf, hs⟩ := directDigits_isSpan _ _ hm
      obtain ⟨s, hs1, hs2⟩ := span_of_normalized text m hinf hs
      exact hspan s hs1 hs2
    rw [findBoletoCandidates_eq]
    unfold boletoMap
    rw [h1, h2]
    rfl
  have hp : findPixCopiaECola text = [] := by
    have h1 : matchAll pixAt (pixText text) = [] := by
      rw [List.eq_nil_iff_forall_not_mem]
      intro m hm
      obtain ⟨s, n, hsuf, h2, _, _⟩ := matchAll_inside _ _ _ hm
      apply hpix
      rw [← pixText_eq_filter]
      exact ((pixAt_spec s n h2).1.isInfix).trans hsuf.isInfix
    rw [findPixCopiaECola_eq]
    unfold pixMap
    rw [h1]
    rfl
  unfold extract
  simp only [hb, hp]
  exact ⟨rfl, rfl⟩

/-- Witness of C6 as amended: a greeting. -/
theorem nothing_found_witness :
    (extract initialPage "bom dia".toList).found = [] ∧
    (extract initialPage "bom dia".toList).selectedIndex = -1 :=
  nothing_found initialPage "bom dia".toList
    (fun s hs h => by
      have h1 := hs.length_le
      have h2 := h.1
      simp at h1
      omega)
    (by decide)

set_option maxRecDepth 1000000 in
/-- C6 fails as stated: a text without a long digit span and without the
literal `000201`, in which a space splits the marker, still gives a PIX
candidate. -/
theorem split_marker_found :
    (∀ s, s <:+: "0002 01ABCDEFGHIJKLMNOPQRSTUVWX".toList → ¬ IsBoletoSpan s) ∧
    ¬ pixMarker <:+: "0002 01ABCDEFGHIJKLMNOPQRSTUVWX".toList ∧
    (extract initialPage "0002 01ABCDEFGHIJKLMNOPQRSTUVWX".toList).found
      = [{ type := CodeType.PIX, raw := "000201ABCDEFGHIJKLMNOPQRSTUVWX".toList,
           clean := "000201ABCDEFGHIJKLMNOPQRSTUVWX".toList }] ∧
    (extract initialPage "0002 01ABCDEFGHIJKLMNOPQRSTUVWX".toList).selectedIndex = 0 := by
  refine ⟨?_, by decide, by decide, by decide⟩
  intro s hs h
  have h1 := hs.length_le
  have h2 := h.1
  simp at h1
  omega

/-! ## The formatter -/

theorem fiveAt_cases (s : Str) : fiveAt s = some 5 ∨ fiveAt s = none := by
  unfold fiveAt
  split
  · exact Or.inl rfl
  · exact Or.inr rfl

theorem not_space_of_isDigit {c : Char} (h : isDigit c = true) : (!(c == ' ')) = true := by
  have : c ≠ ' ' := by
    intro h0
    rw [h0] at h
    exact absurd h (by decide)
  simpa using this

/-- The grouping inserts spaces only: without them the digits are back. -/
theorem removeSpaces_grouped (l : Str) (skip : Nat) (hl : ∀ c ∈ l, isDigit c = true) :
    removeSpaces (replaceAllAux fiveAt (fun m => m ++ [' ']) skip l) = l.drop skip := by
  induction l generalizing skip with
  | nil => simp [replaceAllAux, removeSpaces]
  | cons c rest ih =>
    have hrest : ∀ c ∈ rest, isDigit c = true := fun x hx => hl x (List.mem_cons_of_mem _ hx)
    have hc : (!(c == ' ')) = true := not_space_of_isDigit (hl c (List.mem_cons_self _ _))
    cases skip with
    | succ k =>
      rw [replaceAllAux, List.drop_succ_cons]
      exact ih k hrest
    | zero =>
      rw [replaceAllAux]
      rcases fiveAt_cases (c :: rest) with h | h
      · rw [h]
        simp only
        unfold removeSpaces at ih ⊢
        rw [List.filter_append, ih 4 hrest, List.filter_append]
        have e1 : List.filter (fun c => !(c == ' ')) (List.take (4 + 1) (c :: rest))
            = List.take (4 + 1) (c :: rest) := by
          rw [List.filter_eq_self]
          intro x hx
          exact not_space_of_isDigit (hl x (List.mem_of_mem_take hx))
        rw [e1]
        have e2 : List.filter (fun c => !(c == ' ')) [' '] = [] := by decide
        rw [e2, List.append_nil, List.drop_zero]
        have e3 : List.drop 4 rest = List.drop (4 + 1) (c :: rest) := rfl
        rw [e3, List.take_append_drop]
      · rw [h]
        simp only
        unfold removeSpaces at ih ⊢
        rw [List.filter_cons]
        simp only [hc, if_true]
        rw [ih 0 hrest, List.drop_zero, List.drop_zero]

/-- The grouping holds characters of the text and spaces only. -/
theorem mem_grouped (l : Str) (skip : Nat) (x : Char)
    (hx : x ∈ replaceAllAux fiveAt (fun m => m ++ [' ']) skip l) : x ∈ l ∨ x = ' ' := by
  induction l generalizing skip with
  | nil => simp [replaceAllAux] at hx
  | cons c rest ih =>
    cases skip with
    | succ k =>
      rw [replaceAllAux] at hx
      rcases ih k hx with h | h
      · exact Or.inl (List.mem_cons_of_mem _ h)
      · exact Or.inr h
    | zero =>
      rw [replaceAllAux] at hx
      rcases fiveAt_cases (c :: rest) with h | h
      · rw [h] at hx
        simp only at hx
        rcases List.mem_append.mp hx with hx | hx
        · rcases List.mem_append.mp hx with hx | hx
          · exact Or.inl (List.mem_of_mem_take hx)
          · exact Or.inr (List.mem_singleton.mp hx)
        · rcases ih 4 hx with h | h
          · exact Or.inl (List.mem_cons_of_mem _ h)
          · exact Or.inr h
      · rw [h] at hx
        simp only at hx
        rcases List.mem_cons.mp hx with hx | hx
        · exact Or.inl (hx ▸ List.mem_cons_self _ _)
        · rcases ih 0 hx with h | h
          · exact Or.inl (List.mem_cons_of_mem _ h)
          · exact Or.inr h

theorem filter_dropWhile_of_imp (p q : Char → Bool) (l : Str)
    (h : ∀ c ∈ l, q c = true → p c = false) :
    (l.dropWhile q).filter p = l.filter p := by
  induction l with
  | nil => rfl
  | cons a l ih =>
    have ih' := ih (fun c hc => h c (List.mem_cons_of_mem _ hc))
    by_cases ha : q a = true
    · rw [List.dropWhile_cons_of_pos ha, ih',
        List.filter_cons_of_neg (by rw [h a (List.mem_cons_self _ _) ha]; exact Bool.false_ne_true)]
    · rw [List.dropWhile_cons_of_neg ha]

theorem filter_rdropWhile_of_imp (p q : Char → Bool) (l : Str)
    (h : ∀ c ∈ l, q c = true → p c = false) :
    (l.rdropWhile q).filter p = l.filter p := by
  unfold List.rdropWhile
  rw [List.filter_reverse,
    filter_dropWhile_of_imp p q l.reverse (fun c hc => h c (List.mem_reverse.mp hc)),
    List.filter_reverse, List.reverse_reverse]

/-- Trimming a text of digits and spaces removes spaces only. -/
theorem removeSpaces_trim (l : Str) (h : ∀ c ∈ l, isDigit c = true ∨ c = ' ') :
    removeSpaces (trim l) = removeSpaces l := by
  have himp : ∀ c ∈ l, isWhiteSpace c = true → (!(c == ' ')) = false := by
    intro c hc hw
    rcases h c hc with hd | hs
    · rw [not_isWhiteSpace_of_isDigit hd] at hw
      exact absurd hw Bool.false_ne_true
    · rw [hs]
      rfl
  unfold removeSpaces trim
  rw [filter_rdropWhile_of_imp _ _ _
      (fun c hc => himp c ((List.dropWhile_suffix _).subset hc)),
    filter_dropWhile_of_imp _ _ _ himp]

theorem removeSpaces_formatBoleto (s : Str) :
    removeSpaces (formatBoleto s) = onlyDigits s := by
  have hd : ∀ c ∈ onlyDigits s, isDigit c = true := by
    intro c hc
    rw [onlyDigits_eq_filter] at hc
    exact (List.mem_filter.mp hc).2
  unfold formatBoleto replaceAll
  simp only
  rw [removeSpaces_trim, removeSpaces_grouped _ _ hd, List.drop_zero]
  intro c hc
  rcases mem_grouped _ _ _ hc with h | h
  · exact Or.inl (hd c h)
  · exact Or.inr h

/-- C8: for every candidate `c` of `findBoletoCandidates`, and for every
string `s` of digits, deleting the spaces of the formatted value gives the value
back. -/
theorem format_round_trip (text : Str) (c : Candidate) (s : Str)
    (hc : c ∈ findBoletoCandidates text) (hs : ∀ ch ∈ s, isDigit ch = true) :
    removeSpaces (formatBoleto c.clean) = c.clean ∧ removeSpaces (formatBoleto s) = s := by
  constructor
  · rw [removeSpaces_formatBoleto]
    exact onlyDigits_of_digits _ (findBoletoCandidates_mem text c hc).2.1
  · rw [removeSpaces_formatBoleto]
    exact onlyDigits_of_digits _ hs

set_option maxRecDepth 1000000 in
/-- Witness of C8: the candidate of the example line and a string of seven
digits. -/
theorem format_round_trip_witness :
    removeSpaces (formatBoleto exampleDigits) = exampleDigits ∧
    removeSpaces (formatBoleto "1234567".toList) = "1234567".toList :=
  format_round_trip exampleBoleto
    { type := CodeType.BOLETO, raw := exampleBoleto, clean := exampleDigits }
    "1234567".toList (by decide) (by decide)

theorem grouped_short (l : Str) (h : l.length < 5) :
    replaceAllAux fiveAt (fun m => m ++ [' ']) 0 l = l := by
  induction l with
  | nil => rfl
  | cons c rest ih =>
    have hnone : fiveAt (c :: rest) = none := by
      have h5 : ¬ 5 ≤ (c :: rest).length := by omega
      have hcond : (decide (5 ≤ (c :: rest).length) && ((c :: rest).take 5).all isDotChar)
          = false := by
        rw [decide_eq_false h5]
        rfl
      unfold fiveAt
      simp only [hcond, Bool.false_eq_true, if_false]
    rw [replaceAllAux, hnone]
    simp only
    rw [ih (by simp at h; omega)]

theorem grouped_five (a b c d e : Char) (tl : Str)
    (h : ∀ x ∈ [a, b, c, d, e], isDigit x = true) :
    replaceAllAux fiveAt (fun m => m ++ [' ']) 0 (a :: b :: c :: d :: e :: tl)
      = a :: b :: c :: d :: e :: ' ' :: replaceAllAux fiveAt (fun m => m ++ [' ']) 0 tl := by
  have hsome : fiveAt (a :: b :: c :: d :: e :: tl) = some 5 := by
    unfold fiveAt
    have hall : (List.take 5 (a :: b :: c :: d :: e :: tl)).all isDotChar = true := by
      rw [List.all_eq_true]
      intro x hx
      exact isDotChar_of_isDigit (h x (by simpa using hx))
    have hcond : (decide (5 ≤ (a :: b :: c :: d :: e :: tl).length)
        && ((a :: b :: c :: d :: e :: tl).take 5).all isDotChar) = true := by
      rw [hall, Bool.and_true]
      exact decide_eq_true (by simp)
    simp only [hcond, if_true]
  rw [replaceAllAux, hsome]
  simp only [replaceAllAux, List.take_succ_cons, List.take_zero, List.cons_append,
    List.nil_append]

theorem trim_of_head_digit (d : Char) (l : Str) (hd : isDigit d = true) :
    trim (d :: l) = d :: l.rdropWhile isWhiteSpace := by
  unfold trim
  rw [List.dropWhile_cons_of_neg (by rw [not_isWhiteSpace_of_isDigit hd]; exact Bool.false_ne_true)]
  exact rdropWhile_append_cons isWhiteSpace [] d l (not_isWhiteSpace_of_isDigit hd)

/-- On a string of digits the formatter of the source builds the grouping of
the specification. -/
theorem trim_grouped (n : Nat) (l : Str) (hn : l.length = n) (hl : ∀ c ∈ l, isDigit c = true) :
    trim (replaceAllAux fiveAt (fun m => m ++ [' ']) 0 l) = groupsOfFive l := by
  induction n using Nat.strong_induction_on generalizing l with
  | _ n ih =>
    match l, hn, hl with
    | a :: b :: c :: d :: e :: tl, hn, hl =>
      have h5 : ∀ x ∈ [a, b, c, d, e], isDigit x = true := by
        intro x hx
        apply hl
        simp only [List.mem_cons, List.mem_singleton, List.not_mem_nil, or_false] at hx ⊢
        tauto
      have ha : isDigit a = true := h5 a (by simp)
      rw [grouped_five a b c d e tl h5]
      cases tl with
      | nil =>
        rw [trim_of_head_digit a _ ha]
        have : replaceAllAux fiveAt (fun m => m ++ [' ']) 0 [] = [] := rfl
        rw [this]
        have hr : List.rdropWhile isWhiteSpace [b, c, d, e, ' '] = [b, c, d, e] := by
          have he : isWhiteSpace e = false := not_isWhiteSpace_of_isDigit (h5 e (by simp))
          have := rdropWhile_append_cons isWhiteSpace [b, c, d] e [' '] he
          simpa [List.rdropWhile] using this
        rw [hr]
        rfl
      | cons f tl' =>
        have htl : ∀ x ∈ f :: tl', isDigit x = true := by
          intro x hx
          apply hl
          simp only [List.mem_cons] at hx ⊢
          tauto
        have hf : isDigit f = true := htl f (List.mem_cons_self _ _)
        have ih' := ih (f :: tl').length (by rw [← hn]; simp) (f :: tl') rfl htl
        obtain ⟨g, G, hG⟩ : ∃ g G,
            replaceAllAux fiveAt (fun m => m ++ [' ']) 0 (f :: tl') = g :: G ∧
              isDigit g = true := by
          by_cases hlen : (f :: tl').length < 5
          · exact ⟨f, tl', grouped_short _ hlen, hf⟩
          · match tl', htl, hlen with
            | [], _, hlen => simp at hlen
            | [_], _, hlen => simp at hlen
            | [_, _], _, hlen => simp at hlen
            | [_, _, _], _, hlen => simp at hlen
            | b' :: c' :: d' :: e' :: tl2, htl, _ =>
              refine ⟨f, _, grouped_five f b' c' d' e' tl2 ?_, hf⟩
              intro x hx
              apply htl
              simp only [List.mem_cons, List.mem_singleton, List.not_mem_nil, or_false] at hx ⊢
              tauto
        rw [hG.1] at ih' ⊢
        rw [trim_of_head_digit g G hG.2] at ih'
        rw [trim_of_head_digit a _ ha]
        have hw : isWhiteSpace g = false := not_isWhiteSpace_of_isDigit hG.2
        have := rdropWhile_append_cons isWhiteSpace [b, c, d, e, ' '] g G hw
        simp only [List.cons_append, List.nil_append] at this
        rw [this, ih']
        rfl
    | [], _, _ => rfl
    | [a], _, hl =>
      rw [grouped_short _ (by simp)]
      exact trim_eq_self_of_all_false _ (fun c hc => not_isWhiteSpace_of_isDigit (hl c hc))
    | [a, b], _, hl =>
      rw [grouped_short _ (by simp)]
      exact trim_eq_self_of_all_false _ (fun c hc => not_isWhiteSpace_of_isDigit (hl c hc))
    | [a, b, c], _, hl =>
      rw [grouped_short _ (by simp)]
      exact trim_eq_self_of_all_false _ (fun c hc => not_isWhiteSpace_of_isDigit (hl c hc))
    | [a, b, c, d], _, hl =>
      rw [grouped_short _ (by simp)]
      exact trim_eq_self_of_all_false _ (fun c hc => not_isWhiteSpace_of_isDigit (hl c hc))

theorem formatBoleto_eq_groupsOfFive (s : Str) :
    formatBoleto s = groupsOfFive (onlyDigits s) := by
  unfold formatBoleto replaceAll
  simp only
  apply trim_grouped _ _ rfl
  intro c hc
  rw [onlyDigits_eq_filter] at hc
  exact (List.mem_filter.mp hc).2

/-- C9, as the code has it: `formatBoleto` never fails; for every input it
drops what is no digit and returns the digits that remain in blocks of 5 with
one space between two blocks, so that without its spaces the result is
`onlyDigits s`.  The type is checked by the handler of the format button: with a
PIX candidate selected it does not call the formatter, leaves the output, the
list and the selection as they are and sets the status `warn`. -/
theorem format_drops_non_digits (s : Str) (p : Page) (item : Candidate)
    (hitem : p.item = some item) (hpix : item.type = CodeType.PIX) :
    formatBoleto s = groupsOfFive (onlyDigits s) ∧
    formatBoleto s = formatBoleto (onlyDigits s) ∧
    removeSpaces (formatBoleto s) = onlyDigits s ∧
    (btnFormat p).output = p.output ∧ (btnFormat p).status = StatusKind.warn ∧
    (btnFormat p).found = p.found ∧ (btnFormat p).selectedIndex = p.selectedIndex := by
  have hidem : onlyDigits (onlyDigits s) = onlyDigits s := by
    apply onlyDigits_of_digits
    intro c hc
    rw [onlyDigits_eq_filter] at hc
    exact (List.mem_filter.mp hc).2
  have hb : btnFormat p = { p with status := StatusKind.warn } := by
    unfold btnFormat
    rw [hitem]
    simp [hpix]
  refine ⟨formatBoleto_eq_groupsOfFive s, ?_, removeSpaces_formatBoleto s, ?_, ?_, ?_, ?_⟩
  · unfold formatBoleto
    simp only [hidem]
  all_goals rw [hb]

set_option maxRecDepth 1000000 in
/-- Witness of C9 as amended: a text with a letter among its digits gives its
seven digits in a block of 5 and a block of 2, and a page with one PIX
candidate selected keeps its output. -/
theorem format_drops_non_digits_witness :
    formatBoleto "12a45678".toList = groupsOfFive (onlyDigits "12a45678".toList) ∧
    groupsOfFive (onlyDigits "12a45678".toList) = "12456 78".toList ∧
    groupsOfFive exampleDigits
      = "34191 79001 01043 51004 79102 01500 08792 11000 00310 00".toList ∧
    (btnFormat
      { found := [{ type := CodeType.PIX, raw := "000201ABCDEFGHIJKLMNOPQRSTUVWX".toList,
                    clean := "000201ABCDEFGHIJKLMNOPQRSTUVWX".toList }],
        selectedIndex := 0, output := "000201ABCDEFGHIJKLMNOPQRSTUVWX".toList,
        status := StatusKind.ok }).output = "000201ABCDEFGHIJKLMNOPQRSTUVWX".toList :=
  have h := format_drops_non_digits "12a45678".toList
    { found := [{ type := CodeType.PIX, raw := "000201ABCDEFGHIJKLMNOPQRSTUVWX".toList,
                  clean := "000201ABCDEFGHIJKLMNOPQRSTUVWX".toList }],
      selectedIndex := 0, output := "000201ABCDEFGHIJKLMNOPQRSTUVWX".toList,
      status := StatusKind.ok }
    { type := CodeType.PIX, raw := "000201ABCDEFGHIJKLMNOPQRSTUVWX".toList,
      clean := "000201ABCDEFGHIJKLMNOPQRSTUVWX".toList } (by decide) (by decide)
  ⟨h.1, by decide, by decide, h.2.2.2.1⟩

set_option maxRecDepth 1000000 in
/-- C9 fails as stated: for a text with a letter in it, and for a PIX payload,
`formatBoleto` returns a formatted string. -/
theorem format_returns_for_non_digits :
    formatBoleto "12a45678".toList = "12456 78".toList ∧
    formatBoleto "000201ABCDEFGHIJKLMNOPQRSTUVWX".toList = "00020 1".toList ∧
    formatBoleto examplePix = "00020 12658 00140 13652 04000 05303 98658 02592 06009 62100 50612 36304".toList := by
  decide

/-! ## The length gate -/

/-- A text of fewer than 46 characters, such as a run of 45 digits, gives no
boleto candidate: the half of the length gate that the code keeps. -/
theorem short_text_rejected (text : Str) (h : text.length ≤ 45) :
    findBoletoCandidates text = [] := by
  have hlen : (normalizeText text).length ≤ 45 := by
    rw [normalizeText_eq]
    have := (trim_inside (text.map nbspToSpace)).length_le
    simp at this
    omega
  have h2 : matchAll directDigitsAt (normalizeText text) = [] := by
    rw [List.eq_nil_iff_forall_not_mem]
    intro m hm
    obtain ⟨s, n, hsuf, hs, _, _⟩ := matchAll_inside _ _ _ hm
    obtain ⟨h46, _, hle, _⟩ := directDigitsAt_spec s n hs
    have := hsuf.length_le
    omega
  have h1 : (matchAll boletoRunAt (normalizeText text)).foldl boletoStep [] = [] := by
    apply foldl_invariant (P := fun u => u = [])
    · intro u m hm hu
      obtain ⟨_, _, _, _, _, hinf⟩ := matchAll_inside _ _ _ hm
      have hm1 := hinf.length_le
      have hm2 : (onlyDigits m).length ≤ m.length := by
        rw [onlyDigits_eq_filter]
        exact List.length_filter_le _ _
      have hno : isBoletoLength (onlyDigits m).length = false := by
        cases hb : isBoletoLength (onlyDigits m).length
        · rfl
        · have := (isBoletoLength_iff _).mp hb
          omega
      rw [hu]
      unfold boletoStep
      simp only [hno]
      rfl
    · rfl
  rw [findBoletoCandidates_eq]
  unfold boletoMap
  rw [h1, h2]
  rfl

set_option maxRecDepth 1000000 in
/-- C4 at a text of 49 digits: the second pass takes the first 48 digits of
the run as a candidate, although the first pass has rejected the run. -/
theorem run_of_49_digits_accepted :
    matchAll boletoRunAt (List.replicate 49 '1') = [List.replicate 49 '1'] ∧
    matchAll directDigitsAt (List.replicate 49 '1') = [List.replicate 48 '1'] ∧
    findBoletoCandidates (List.replicate 49 '1')
      = [{ type := CodeType.BOLETO, raw := List.replicate 48 '1',
           clean := List.replicate 48 '1' }] := by
  decide

end ExtrairCodigo
